import Mathlib

/-!
Verification of the Kiwiberry Picking A* implementation.

This file is a shallow embedding of the Python sources `farm_layout.py`
(the grid provider data), `cost.py` (the hex metric), `state.py` (the
immutable search state and its transition model), `heuristic.py` (the
heuristic evaluator) and `A_search.py` (the A* engine), together with
theorems settling the specification claims about them.

Modelling conventions:
- Python integers are `Int` (arbitrary precision, no overflow).
- The Python `float` costs of `A_search.py` only ever hold integer values
  (`0.0` plus unit step costs), so costs are `Int`; the `float("inf")`
  no-solution cost is the `none` of an `Option Int`.
- Python exceptions (`ValueError`, `KeyError`) are the `none` of `Option`
  results, or the `.error` side of `Except String` in the search loop.
- The `while` loop of `a_search` is embedded with an explicit fuel
  parameter; running out of fuel is the outer `none`.  Termination of the
  Python loop is expressed as: some fuel makes the run return.
- `frozenset` is `Finset`, `dict` is an association list with the same
  lookup/update semantics (`alookup`/`aupdate`).
- The `heapq` heap of `(f, counter, state)` triples pops the entry that is
  minimal in the lexicographic order on `(f, counter)`; counters are
  pairwise distinct throughout a run, so the tuple comparison never reaches
  the `State` component, and any min-extraction implements it.
- Grid data satisfies the Grid Provider contract of the spec: resource
  weights and volumes are nonnegative, and the declared capacity maxima are
  nonnegative.  These are recorded as proof fields of `Farm`.
-/

/-- Axial hex coordinate, the `(q, r)` pair of the source. -/
abbrev Pos := Int × Int

/-- Hex distance from `cost.py`: convert both axial coordinates to cube
coordinates and take half the L1 distance.  Python computes
`(dx + dy + dz) // 2` on nonnegative ints, which is `Nat` division. -/
def hex_distance (a b : Pos) : Int :=
  let ax := a.1
  let ay := -a.1 - a.2
  let az := a.2
  let bx := b.1
  let by' := -b.1 - b.2
  let bz := b.2
  (((ax - bx).natAbs + (ay - by').natAbs + (az - bz).natAbs) / 2 : Nat)

/-- Association-list lookup, the semantics of Python `dict` indexing. -/
def alookup {α β : Type} [DecidableEq α] : List (α × β) → α → Option β
  | [], _ => none
  | e :: rest, k => if e.1 = k then some e.2 else alookup rest k

/-- Association-list update, the semantics of Python `dict` assignment:
replace the binding if the key is present, otherwise append it. -/
def aupdate {α β : Type} [DecidableEq α] : List (α × β) → α → β → List (α × β)
  | [], k, v => [(k, v)]
  | e :: rest, k, v => if e.1 = k then (k, v) :: rest else e :: aupdate rest k v

/-- The grid provider of `farm_layout.py`: cells as an association list from
position to `(weight, volume)`, the collection stations, the basket capacity
maxima and the start position.  The proof fields are the Grid Provider
contract of the spec (resource weights/volumes and maxima nonnegative). -/
structure Farm where
  cells : List (Pos × Int × Int)
  collection_stations : List Pos
  max_weight : Int
  max_volume : Int
  start : Pos
  nonneg_weight : ∀ e ∈ cells, 0 ≤ e.2.1
  nonneg_volume : ∀ e ∈ cells, 0 ≤ e.2.2
  max_weight_nonneg : 0 ≤ max_weight
  max_volume_nonneg : 0 ≤ max_volume

namespace Farm

/-- Lookup of a cell record, Python `self.cells.get(pos)`. -/
def lookupCell (farm : Farm) (pos : Pos) : Option (Int × Int) :=
  alookup farm.cells pos

/-- Python `Farm.get_weight`: weight of the cell, `0` if absent. -/
def get_weight (farm : Farm) (pos : Pos) : Int :=
  match farm.lookupCell pos with
  | some c => c.1
  | none => 0

/-- Python `Farm.get_volume`: volume of the cell, `0` if absent. -/
def get_volume (farm : Farm) (pos : Pos) : Int :=
  match farm.lookupCell pos with
  | some c => c.2
  | none => 0

/-- Python `Farm.in_bounds`: membership in the cell dictionary. -/
def in_bounds (farm : Farm) (pos : Pos) : Bool :=
  (farm.lookupCell pos).isSome

/-- The six axial directions of `Farm.get_neighbors`, in source order. -/
def directions : List Pos :=
  [(1, 0), (1, -1), (0, -1), (-1, 0), (-1, 1), (0, 1)]

/-- Python `Farm.get_neighbors`: the in-bounds cells adjacent to `pos`,
in the fixed direction order. -/
def get_neighbors (farm : Farm) (pos : Pos) : List Pos :=
  directions.filterMap (fun d =>
    let npos : Pos := (pos.1 + d.1, pos.2 + d.2)
    if farm.in_bounds npos then some npos else none)

/-- Python `Farm.all_cells`: the list of cell positions. -/
def all_cells (farm : Farm) : List Pos :=
  farm.cells.map (·.1)

/-- Python `Farm.get_collection_stations`. -/
def get_collection_stations (farm : Farm) : List Pos :=
  farm.collection_stations

end Farm

/-- The immutable search state of `state.py`: position, basket load as a
`(weight, volume)` pair, and the frozenset of harvested positions. -/
structure State where
  position : Pos
  basket_load : Int × Int
  harvested : Finset Pos
deriving DecidableEq

namespace State

/-- Python property `State.weight`. -/
def weight (s : State) : Int := s.basket_load.1

/-- Python property `State.volume`. -/
def volume (s : State) : Int := s.basket_load.2

/-- Python `State.can_harvest_cell`: the cell is in bounds, has positive
weight, is not yet harvested, and its whole weight and volume fit within the
remaining capacity of both dimensions. -/
def can_harvest_cell (s : State) (farm : Farm) (pos : Pos) : Bool :=
  if ¬ farm.in_bounds pos then false
  else if farm.get_weight pos ≤ 0 then false
  else if pos ∈ s.harvested then false
  else
    decide (farm.get_weight pos ≤ farm.max_weight - s.weight) &&
    decide (farm.get_volume pos ≤ farm.max_volume - s.volume)

/-- Python `State.with_harvested`: harvest the whole cell at `pos`.  The
`ValueError` raised when the precondition fails is the `none` result. -/
def with_harvested (s : State) (pos : Pos) (farm : Farm) : Option State :=
  if ¬ s.can_harvest_cell farm pos then none
  else
    some { position := pos,
           basket_load := (s.weight + farm.get_weight pos,
                           s.volume + farm.get_volume pos),
           harvested := insert pos s.harvested }

/-- Python `State.with_unloaded`: reset the basket load at the current
position, keeping the harvested set. -/
def with_unloaded (s : State) : State :=
  { s with basket_load := (0, 0) }

/-- Python `State.is_valid_move`: the target is in bounds and is one of the
neighbors of the current position. -/
def is_valid_move (s : State) (farm : Farm) (target : Pos) : Bool :=
  farm.in_bounds target && decide (target ∈ farm.get_neighbors s.position)

/-- Python `State.move_to`: move to the target; unloading at a collection
station takes precedence, otherwise an automatic harvest is attempted.  The
`ValueError` on an invalid move is the `none` result. -/
def move_to (s : State) (farm : Farm) (target : Pos)
    (auto_harvest : Bool := true) (auto_unload : Bool := true) : Option State :=
  if ¬ s.is_valid_move farm target then none
  else
    let new_state : State :=
      { position := target, basket_load := s.basket_load, harvested := s.harvested }
    if auto_unload && decide (target ∈ farm.get_collection_stations) then
      some new_state.with_unloaded
    else if auto_harvest && new_state.can_harvest_cell farm target then
      new_state.with_harvested target farm
    else
      some new_state

end State

/-- Rendering of a position, matching the Python `str` of an int pair. -/
def posStr (p : Pos) : String :=
  "(" ++ toString p.1 ++ ", " ++ toString p.2 ++ ")"

/-- The action string built by `State.successors` for one move. -/
def moveAction (s : State) (farm : Farm) (npos : Pos) (next_state : State) : String :=
  let base := "MOVE " ++ posStr s.position ++ "->" ++ posStr npos
  if decide (next_state.position ∈ farm.get_collection_stations) &&
     decide (next_state.weight = 0) && decide (next_state.volume = 0) then
    base ++ "+UNLOAD"
  else if decide (npos ∈ next_state.harvested) && decide (npos ∉ s.harvested) then
    base ++ "+HARVEST"
  else base

namespace State

/-- The loop body of `State.successors` over a list of candidate neighbor
positions: invalid moves are skipped, and an exception from `move_to`
aborts the whole enumeration (outer `none`). -/
def succRun (s : State) (farm : Farm) (move_cost : Int) :
    List Pos → Option (List (String × State × Int))
  | [] => some []
  | npos :: rest =>
    if ¬ s.is_valid_move farm npos then s.succRun farm move_cost rest
    else
      match s.move_to farm npos true true with
      | none => none
      | some next_state =>
        match s.succRun farm move_cost rest with
        | none => none
        | some tail =>
          some ((moveAction s farm npos next_state, next_state, move_cost) :: tail)

/-- Python `State.successors`: the transition records
`(action, next_state, cost)` for every in-bounds neighbor. -/
def successors (s : State) (farm : Farm) (move_cost : Int := 1) :
    Option (List (String × State × Int)) :=
  s.succRun farm move_cost (farm.get_neighbors s.position)

/-- Python `State.is_goal`: every cell with positive weight has been
harvested. -/
def is_goal (s : State) (farm : Farm) : Bool :=
  farm.all_cells.all (fun p =>
    if 0 < farm.get_weight p then decide (p ∈ s.harvested) else true)

end State

/-- The hard-coded basket threshold of `heuristic.py` (`BASKET_LIMIT = 12.0`);
basket weights are integers, so the comparison is against the integer 12. -/
def BASKET_LIMIT : Int := 12

/-- Python `nearest_target_dist`: minimum hex distance to a target, `0` when
there are no targets. -/
def nearest_target_dist (pos : Pos) (targets : List Pos) : Int :=
  match targets.map (fun t => hex_distance pos t) with
  | [] => 0
  | d :: ds => ds.foldl min d

/-- Python `h_nearest_plot`: distance to the nearest unharvested cell of
positive weight. -/
def h_nearest_plot (s : State) (farm : Farm) : Int :=
  nearest_target_dist s.position
    (farm.all_cells.filter
      (fun p => decide (0 < farm.get_weight p) && decide (p ∉ s.harvested)))

/-- Python `h_return_if_full`: distance to the nearest collection station
when the carried weight has reached `BASKET_LIMIT`, else `0`. -/
def h_return_if_full (s : State) (farm : Farm) : Int :=
  if s.weight < BASKET_LIMIT then 0
  else
    match farm.get_collection_stations.map (fun c => hex_distance s.position c) with
    | [] => 0
    | d :: ds => ds.foldl min d

/-- Python `h_combined`: the maximum of the two component heuristics. -/
def h_combined (s : State) (farm : Farm) : Int :=
  max (h_nearest_plot s farm) (h_return_if_full s farm)

/-- Heuristic signature of `A_search.py`. -/
abbrev HeuristicFn := State → Farm → Int

/-- The mutable bookkeeping of one `a_search` run: the `g_score` dict, the
open heap of `(f, counter, state)` entries, the `came_from` dict and the
tie-break counter. -/
structure Config where
  g_score : List (State × Int)
  open_heap : List (Int × Nat × State)
  came_from : List (State × (Option State × String × Int))
  counter : Nat

/-- Lexicographic comparison on `(f, counter)`, the effective heap order of
the Python `(f, counter, state)` triples. -/
def heapLe (x y : Int × Nat) : Bool :=
  decide (x.1 < y.1) || (decide (x.1 = y.1) && decide (x.2 ≤ y.2))

/-- Extraction of the minimum heap entry (`heapq.heappop`); returns the
entry and the remaining heap, or `none` on an empty heap. -/
def popMin : List (Int × Nat × State) → Option ((Int × Nat × State) × List (Int × Nat × State))
  | [] => none
  | e :: es =>
    match popMin es with
    | none => some (e, [])
    | some (m, rest) =>
      if heapLe (e.1, e.2.1) (m.1, m.2.1) then some (e, es) else some (m, e :: rest)

/-- Python `reconstruct_path`: walk the predecessor links, accumulating
`(action, state)` pairs.  The Python `while` loop is given explicit fuel;
`none` means the walk did not finish within the fuel (the Python loop would
still be running). -/
def reconstruct_path (came_from : List (State × (Option State × String × Int))) :
    Nat → Option State → List (String × State) → Option (List (String × State))
  | _, none, acc => some acc
  | fuel, some s, acc =>
    match alookup came_from s with
    | none => some acc
    | some (parent, action, _) =>
      match fuel with
      | 0 => none
      | n + 1 => reconstruct_path came_from n parent ((action, s) :: acc)

/-- The result triple of `a_search`: optional goal state, the `(action,
state)` path, and the total cost (`none` is `float("inf")`). -/
abbrev SearchResult := Option State × List (String × State) × Option Int

/-- Processing of one successor record inside the expansion loop of
`a_search`: skip if a path at least as good is known, otherwise record the
better path and push the candidate. -/
def pushSucc (farm : Farm) (h : HeuristicFn) (current : State) (current_g : Int)
    (cfg : Config) (e : String × State × Int) : Config :=
  let tentative_g := current_g + e.2.2
  let skip : Bool :=
    match alookup cfg.g_score e.2.1 with
    | some old => decide (old ≤ tentative_g)
    | none => false
  if skip then cfg
  else
    let counter' := cfg.counter + 1
    { g_score := aupdate cfg.g_score e.2.1 tentative_g,
      came_from := aupdate cfg.came_from e.2.1 (some current, e.1, e.2.2),
      counter := counter',
      open_heap := cfg.open_heap ++ [(tentative_g + h e.2.1 farm, counter', e.2.1)] }

/-- The full expansion of a popped node over its successor records. -/
def expandNode (farm : Farm) (h : HeuristicFn) (current : State) (current_g : Int)
    (succs : List (String × State × Int)) (cfg : Config) : Config :=
  succs.foldl (pushSucc farm h current current_g) cfg

/-- One iteration of the `a_search` main loop: pop the best node, test the
goal, expand successors.  `.inr` ends the loop with a result, `.inl`
continues; `.error` is a Python exception (or a diverging inner loop). -/
def a_step (farm : Farm) (h : HeuristicFn) (cfg : Config) :
    Except String (Config ⊕ SearchResult) :=
  match popMin cfg.open_heap with
  | none => .ok (.inr (none, [], none))
  | some ((_, _, current), heap') =>
    match alookup cfg.g_score current with
    | none => .error "KeyError: g_score"
    | some current_g =>
      if current.is_goal farm then
        match reconstruct_path cfg.came_from (cfg.came_from.length + 1) (some current) [] with
        | none => .error "reconstruct_path does not terminate"
        | some path => .ok (.inr (some current, path, some current_g))
      else
        match current.successors farm 1 with
        | none => .error "ValueError: invalid transition"
        | some succs =>
          .ok (.inl (expandNode farm h current current_g succs
            { cfg with open_heap := heap' }))

/-- The initial bookkeeping of `a_search`. -/
def initConfig (farm : Farm) (h : HeuristicFn) (start_state : State) : Config :=
  { g_score := [(start_state, 0)],
    open_heap := [(h start_state farm, 0, start_state)],
    came_from := [(start_state, (none, "START", 0))],
    counter := 0 }

/-- The `while open_heap` loop of `a_search`, with explicit fuel; the outer
`none` means the fuel ran out with the loop still running. -/
def runSearch (farm : Farm) (h : HeuristicFn) :
    Nat → Config → Option (Except String SearchResult)
  | 0, _ => none
  | fuel + 1, cfg =>
    match a_step farm h cfg with
    | .error e => some (.error e)
    | .ok (.inr r) => some (.ok r)
    | .ok (.inl cfg') => runSearch farm h fuel cfg'

/-- Python `a_search`, with explicit loop fuel.  The Python function
terminates on an input exactly when some fuel makes this return `some`. -/
def a_search (fuel : Nat) (farm : Farm) (start_state : State)
    (heuristic_fn : HeuristicFn := h_combined) : Option (Except String SearchResult) :=
  runSearch farm heuristic_fn fuel (initConfig farm heuristic_fn start_state)

/-- One legal transition: `t` is the state of some record produced by
`successors` with unit move cost (as invoked by `a_search`). -/
def stepRel (farm : Farm) (s t : State) : Prop :=
  ∃ l, s.successors farm 1 = some l ∧ ∃ a c, (a, t, c) ∈ l

/-- A transition chain of exactly `n` steps. -/
def reachN (farm : Farm) : Nat → State → State → Prop
  | 0, s, t => t = s
  | n + 1, s, t => ∃ m, stepRel farm s m ∧ reachN farm n m t

/-- Reachability through any number of transitions. -/
def ReachableFrom (farm : Farm) (s t : State) : Prop :=
  ∃ n, reachN farm n s t

/-- The initial search state at the farm start: empty load, nothing
harvested. -/
def initialState (farm : Farm) : State :=
  { position := farm.start, basket_load := (0, 0), harvested := ∅ }

/-- Executable test for `stepRel`. -/
def stepB (farm : Farm) (s t : State) : Bool :=
  match s.successors farm 1 with
  | none => false
  | some l => l.any (fun e => decide (e.2.1 = t))

/-- Synthetic five-cell grid: a light resource cell at `(1, 0)` (weight 1),
a heavy one at `(1, 1)` (weight 12), a station at `(-1, 0)`.  Used to probe
the optimality of `a_search` with `h_combined`. -/
def FarmA : Farm where
  cells := [((0, 0), 0, 0), ((1, 0), 1, 500), ((0, 1), 0, 0),
            ((1, 1), 12, 1000), ((-1, 0), 0, 0)]
  collection_stations := [(-1, 0)]
  max_weight := 12
  max_volume := 15000
  start := (0, 0)
  nonneg_weight := by decide
  nonneg_volume := by decide
  max_weight_nonneg := by decide
  max_volume_nonneg := by decide

/-- Synthetic three-cell grid: one resource cell of weight 12 next to the
start, a station two steps from it.  Used to probe the admissibility of
`h_combined`. -/
def FarmB : Farm where
  cells := [((0, 0), 0, 0), ((1, 0), 12, 1000), ((-1, 0), 0, 0)]
  collection_stations := [(-1, 0)]
  max_weight := 12
  max_volume := 15000
  start := (0, 0)
  nonneg_weight := by decide
  nonneg_volume := by decide
  max_weight_nonneg := by decide
  max_volume_nonneg := by decide

/-- Synthetic two-cell grid whose single resource cell (weight 20) exceeds
the carry capacity 12, so it can never be harvested: the spec's no-solution
scenario. -/
def FarmC : Farm where
  cells := [((0, 0), 0, 0), ((1, 0), 20, 100)]
  collection_stations := []
  max_weight := 12
  max_volume := 15000
  start := (0, 0)
  nonneg_weight := by decide
  nonneg_volume := by decide
  max_weight_nonneg := by decide
  max_volume_nonneg := by decide

/-- Synthetic two-cell grid whose collection station also carries a
(pathological) positive resource weight that would fit in the basket. -/
def FarmD : Farm where
  cells := [((0, 0), 0, 0), ((1, 0), 5, 100)]
  collection_stations := [(1, 0)]
  max_weight := 12
  max_volume := 15000
  start := (0, 0)
  nonneg_weight := by decide
  nonneg_volume := by decide
  max_weight_nonneg := by decide
  max_volume_nonneg := by decide

/-- Synthetic two-cell grid with no resource cells at all: the start state
is already a goal. -/
def FarmE : Farm where
  cells := [((0, 0), 0, 0), ((1, 0), 0, 0)]
  collection_stations := []
  max_weight := 12
  max_volume := 15000
  start := (0, 0)
  nonneg_weight := by decide
  nonneg_volume := by decide
  max_weight_nonneg := by decide
  max_volume_nonneg := by decide

/-- A finite superset of every state the search bookkeeping can ever hold,
for a run started at `start`: positions are the start position or a grid
cell, both load components lie in an interval determined by the start load
and the capacity maxima, and the harvested set is contained in the start
harvested set together with the grid cells. -/
def stateSpace (farm : Farm) (start : State) : Finset State :=
  ((insert start.position farm.all_cells.toFinset) ×ˢ
    ((Finset.Icc (min start.weight 0) (max farm.max_weight start.weight)) ×ˢ
      (Finset.Icc (min start.volume 0) (max farm.max_volume start.volume))) ×ˢ
    (start.harvested ∪ farm.all_cells.toFinset).powerset).image
    (fun x => State.mk x.1 x.2.1 x.2.2)

/-- Cardinality of the finite state-space bound. -/
def stateCard (farm : Farm) (start : State) : Nat :=
  (stateSpace farm start).card

/-- Sum of all recorded `g_score` values. -/
def gTotal (g_score : List (State × Int)) : Int :=
  (g_score.map (·.2)).sum

/-- Termination measure of the search loop: every iteration of `a_step`
strictly decreases it.  A pop shortens the heap; every push either strictly
improves a recorded `g` value or claims one of the at most `N` free slots
of the finite state space. -/
def searchMeasure (N : Nat) (cfg : Config) : Int :=
  (cfg.open_heap.length : Int) + 2 * gTotal cfg.g_score +
    2 * (N : Int) * ((N : Int) - (cfg.g_score.length : Int))

/-- Loop invariant of `a_search`, relating the bookkeeping of a
configuration to the farm and the start state. -/
structure SearchInv (farm : Farm) (start : State) (cfg : Config) : Prop where
  heap_keys : ∀ e ∈ cfg.open_heap, (alookup cfg.g_score e.2.2).isSome
  g_nodup : (cfg.g_score.map (·.1)).Nodup
  cf_nodup : (cfg.came_from.map (·.1)).Nodup
  keys_iff : ∀ st : State,
    (alookup cfg.g_score st).isSome ↔ (alookup cfg.came_from st).isSome
  len_eq : cfg.came_from.length = cfg.g_score.length
  g_bounds : ∀ e ∈ cfg.g_score, 0 ≤ e.2 ∧ e.2 < (cfg.g_score.length : Int)
  parent_lt : ∀ e ∈ cfg.came_from, ∀ p : State, e.2.1 = some p →
    ∃ gs gp, alookup cfg.g_score e.1 = some gs ∧
      alookup cfg.g_score p = some gp ∧ gp < gs
  sound : ∀ e ∈ cfg.g_score, ∃ n : Nat, e.2 = (n : Int) ∧ reachN farm n start e.1
  space : ∀ e ∈ cfg.g_score, e.1 ∈ stateSpace farm start

/-- Specification of a result the search loop can legitimately return:
either the no-solution triple, or a reachable goal state whose reported
cost is the length of an actual transition chain to it. -/
def ResultSpec (farm : Farm) (start : State) (r : SearchResult) : Prop :=
  r = (none, [], none) ∨
  ∃ g path c, r = (some g, path, some c) ∧ g.is_goal farm = true ∧
    ∃ n : Nat, c = (n : Int) ∧ reachN farm n start g

/-! ### Basic lemmas about the data model -/

theorem alookup_mem {α β : Type} [DecidableEq α] :
    ∀ {l : List (α × β)} {k : α} {v : β}, alookup l k = some v → (k, v) ∈ l := by
  intro l
  induction l with
  | nil => intro k v h; simp [alookup] at h
  | cons e rest ih =>
    intro k v h
    unfold alookup at h
    by_cases he : e.1 = k
    · rw [if_pos he] at h
      cases h
      subst he
      cases e
      exact List.mem_cons_self _ _
    · rw [if_neg he] at h
      exact List.mem_cons_of_mem _ (ih h)

theorem in_bounds_elim {farm : Farm} {pos : Pos} (h : farm.in_bounds pos = true) :
    ∃ c, (pos, c) ∈ farm.cells ∧ farm.get_weight pos = c.1 ∧ farm.get_volume pos = c.2 := by
  unfold Farm.in_bounds at h
  cases hc : farm.lookupCell pos with
  | none => rw [hc] at h; simp at h
  | some c =>
    exact ⟨c, alookup_mem hc, by unfold Farm.get_weight; rw [hc],
           by unfold Farm.get_volume; rw [hc]⟩

theorem get_volume_nonneg {farm : Farm} {pos : Pos} (h : farm.in_bounds pos = true) :
    0 ≤ farm.get_volume pos := by
  obtain ⟨c, hmem, _, hv⟩ := in_bounds_elim h
  rw [hv]
  exact farm.nonneg_volume _ hmem

theorem can_harvest_elim {s : State} {farm : Farm} {pos : Pos}
    (h : s.can_harvest_cell farm pos = true) :
    farm.in_bounds pos = true ∧ 0 < farm.get_weight pos ∧ pos ∉ s.harvested ∧
    farm.get_weight pos ≤ farm.max_weight - s.weight ∧
    farm.get_volume pos ≤ farm.max_volume - s.volume := by
  unfold State.can_harvest_cell at h
  by_cases h1 : farm.in_bounds pos = true
  · rw [if_neg (by simp [h1])] at h
    by_cases h2 : farm.get_weight pos ≤ 0
    · rw [if_pos h2] at h; cases h
    · rw [if_neg h2] at h
      by_cases h3 : pos ∈ s.harvested
      · rw [if_pos h3] at h; cases h
      · rw [if_neg h3] at h
        simp only [Bool.and_eq_true, decide_eq_true_eq] at h
        exact ⟨h1, by omega, h3, h.1, h.2⟩
  · rw [if_pos (by simp [h1])] at h; cases h

theorem can_harvest_intro {s : State} {farm : Farm} {pos : Pos}
    (h1 : farm.in_bounds pos = true) (h2 : 0 < farm.get_weight pos)
    (h3 : pos ∉ s.harvested)
    (h4 : farm.get_weight pos ≤ farm.max_weight - s.weight)
    (h5 : farm.get_volume pos ≤ farm.max_volume - s.volume) :
    s.can_harvest_cell farm pos = true := by
  unfold State.can_harvest_cell
  rw [if_neg (by simp [h1]), if_neg (by omega), if_neg (by simp [h3])]
  simp [h4, h5]

/-- The harvest eligibility test only reads the load and harvested set, not
the position, so it is unchanged by the intermediate moved state built
inside `move_to`. -/
theorem can_harvest_position_irrel (s : State) (farm : Farm) (p : Pos) (x : Pos) :
    (State.mk p s.basket_load s.harvested).can_harvest_cell farm x =
      s.can_harvest_cell farm x := rfl

/-! ### Characterization of `move_to` and `successors` -/

theorem move_to_some_cases {s : State} {farm : Farm} {target : Pos} {t : State}
    (h : s.move_to farm target true true = some t) :
    s.is_valid_move farm target = true ∧
    ((target ∈ farm.get_collection_stations ∧
        t = State.mk target (0, 0) s.harvested) ∨
     (target ∉ farm.get_collection_stations ∧ s.can_harvest_cell farm target = true ∧
        t = State.mk target
              (s.weight + farm.get_weight target, s.volume + farm.get_volume target)
              (insert target s.harvested)) ∨
     (target ∉ farm.get_collection_stations ∧ s.can_harvest_cell farm target = false ∧
        t = State.mk target s.basket_load s.harvested)) := by
  unfold State.move_to at h
  by_cases hv : s.is_valid_move farm target = true
  · rw [if_neg (by simp [hv])] at h
    refine ⟨hv, ?_⟩
    by_cases hst : target ∈ farm.get_collection_stations
    · rw [if_pos (by simp [hst])] at h
      cases h
      exact Or.inl ⟨hst, rfl⟩
    · rw [if_neg (by simp [hst])] at h
      rw [can_harvest_position_irrel] at h
      by_cases hch : s.can_harvest_cell farm target = true
      · rw [if_pos (by simp [hch])] at h
        unfold State.with_harvested at h
        rw [can_harvest_position_irrel, if_neg (by simp [hch])] at h
        cases h
        exact Or.inr (Or.inl ⟨hst, hch, rfl⟩)
      · rw [if_neg (by simp [hch])] at h
        cases h
        exact Or.inr (Or.inr ⟨hst, by simp at hch; exact ⟨hch, rfl⟩⟩)
  · rw [if_pos (by simp [hv])] at h
    cases h

theorem move_to_isSome {s : State} {farm : Farm} {target : Pos}
    (hv : s.is_valid_move farm target = true) :
    (s.move_to farm target true true).isSome := by
  unfold State.move_to
  rw [if_neg (by simp [hv])]
  by_cases hst : target ∈ farm.get_collection_stations
  · rw [if_pos (by simp [hst])]; rfl
  · rw [if_neg (by simp [hst])]
    by_cases hch :
        (State.mk target s.basket_load s.harvested).can_harvest_cell farm target = true
    · rw [if_pos (by simp [hch])]
      unfold State.with_harvested
      rw [if_neg (by simp [hch])]
      rfl
    · rw [if_neg (by simp [hch])]; rfl

theorem succRun_isSome (s : State) (farm : Farm) (mc : Int) :
    ∀ L : List Pos, (s.succRun farm mc L).isSome := by
  intro L
  induction L with
  | nil => rfl
  | cons npos rest ih =>
    unfold State.succRun
    by_cases hv : s.is_valid_move farm npos = true
    · rw [if_neg (by simp [hv])]
      cases hm : s.move_to farm npos true true with
      | none =>
        have h2 := move_to_isSome hv
        rw [hm] at h2
        cases h2
      | some ns =>
        cases ht : s.succRun farm mc rest with
        | none => rw [ht] at ih; cases ih
        | some tail => simp
    · rw [if_pos (by simp [hv])]
      exact ih

theorem successors_isSome (s : State) (farm : Farm) (mc : Int) :
    (s.successors farm mc).isSome :=
  succRun_isSome s farm mc _

theorem succRun_mem {s : State} {farm : Farm} {mc : Int} :
    ∀ {L : List Pos} {l : List (String × State × Int)},
      s.succRun farm mc L = some l →
      ∀ {e}, e ∈ l →
      ∃ npos, npos ∈ L ∧ s.is_valid_move farm npos = true ∧
        s.move_to farm npos true true = some e.2.1 ∧
        e = (moveAction s farm npos e.2.1, e.2.1, mc) := by
  intro L
  induction L with
  | nil =>
    intro l h e he
    unfold State.succRun at h
    cases h
    cases he
  | cons npos rest ih =>
    intro l h e he
    unfold State.succRun at h
    by_cases hv : s.is_valid_move farm npos = true
    · rw [if_neg (by simp [hv])] at h
      cases hm : s.move_to farm npos true true with
      | none => rw [hm] at h; cases h
      | some ns =>
        rw [hm] at h
        cases ht : s.succRun farm mc rest with
        | none => rw [ht] at h; cases h
        | some tail =>
          rw [ht] at h
          cases h
          rcases List.mem_cons.mp he with rfl | hmem
          · exact ⟨npos, List.mem_cons_self _ _, hv, hm, rfl⟩
          · obtain ⟨np, hnp, h1, h2, h3⟩ := ih ht hmem
            exact ⟨np, List.mem_cons_of_mem _ hnp, h1, h2, h3⟩
    · rw [if_pos (by simp [hv])] at h
      obtain ⟨np, hnp, h1, h2, h3⟩ := ih h he
      exact ⟨np, List.mem_cons_of_mem _ hnp, h1, h2, h3⟩

theorem stepRel_of_mem {s t : State} {farm : Farm} {l : List (String × State × Int)}
    {a : String} {c : Int} (h : s.successors farm 1 = some l) (hm : (a, t, c) ∈ l) :
    stepRel farm s t :=
  ⟨l, h, a, c, hm⟩

theorem stepRel_cases {farm : Farm} {s t : State} (h : stepRel farm s t) :
    ∃ npos, npos ∈ farm.get_neighbors s.position ∧
      s.is_valid_move farm npos = true ∧
      ((npos ∈ farm.get_collection_stations ∧
          t = State.mk npos (0, 0) s.harvested) ∨
       (npos ∉ farm.get_collection_stations ∧ s.can_harvest_cell farm npos = true ∧
          t = State.mk npos
                (s.weight + farm.get_weight npos, s.volume + farm.get_volume npos)
                (insert npos s.harvested)) ∨
       (npos ∉ farm.get_collection_stations ∧ s.can_harvest_cell farm npos = false ∧
          t = State.mk npos s.basket_load s.harvested)) := by
  obtain ⟨l, hl, a, c, hm⟩ := h
  obtain ⟨npos, hnp, hv, hmv, _⟩ := succRun_mem hl hm
  obtain ⟨_, hcases⟩ := move_to_some_cases hmv
  exact ⟨npos, hnp, hv, hcases⟩

theorem stepRel_iff (farm : Farm) (s t : State) :
    stepRel farm s t ↔ stepB farm s t = true := by
  unfold stepRel stepB
  cases h : s.successors farm 1 with
  | none => simp
  | some l =>
    simp only [Option.some.injEq, List.any_eq_true, decide_eq_true_eq]
    constructor
    · rintro ⟨l', hl', a, c, hm⟩
      cases hl'
      exact ⟨(a, t, c), hm, rfl⟩
    · rintro ⟨⟨a, t', c⟩, hm, ht⟩
      cases ht
      exact ⟨l, rfl, a, c, hm⟩

/-! ### Monotonicity and load-bound lemmas about single transitions -/

theorem step_harvested_mono {farm : Farm} {s t : State} (h : stepRel farm s t) :
    s.harvested ⊆ t.harvested := by
  obtain ⟨npos, _, _, hc | hc | hc⟩ := stepRel_cases h
  · rw [hc.2]
  · rw [hc.2.2]; exact Finset.subset_insert _ _
  · rw [hc.2.2]

theorem reachN_harvested_mono {farm : Farm} :
    ∀ {n : Nat} {s t : State}, reachN farm n s t → s.harvested ⊆ t.harvested := by
  intro n
  induction n with
  | zero => intro s t h; cases h; exact Finset.Subset.refl _
  | succ n ih =>
    intro s t h
    obtain ⟨m, hsm, hmt⟩ := h
    exact Finset.Subset.trans (step_harvested_mono hsm) (ih hmt)

theorem step_load_bounds {farm : Farm} {s t : State} (h : stepRel farm s t)
    (hw0 : 0 ≤ s.weight) (hwM : s.weight ≤ farm.max_weight)
    (hv0 : 0 ≤ s.volume) (hvM : s.volume ≤ farm.max_volume) :
    0 ≤ t.weight ∧ t.weight ≤ farm.max_weight ∧
    0 ≤ t.volume ∧ t.volume ≤ farm.max_volume := by
  obtain ⟨npos, _, _, hc | hc | hc⟩ := stepRel_cases h
  · rw [hc.2]
    exact ⟨le_refl 0, farm.max_weight_nonneg, le_refl 0, farm.max_volume_nonneg⟩
  · obtain ⟨_, hch, ht⟩ := hc
    obtain ⟨hib, hwpos, _, hwcap, hvcap⟩ := can_harvest_elim hch
    have hvnn := get_volume_nonneg hib
    rw [ht]
    unfold State.weight State.volume at *
    simp only
    omega
  · rw [hc.2.2]
    exact ⟨hw0, hwM, hv0, hvM⟩

/-! ### Claim C3: unload precedence at collection stations -/

/-- Claim C3: for every state with a valid move to a target cell that is a
collection station, `move_to` yields a state with load `(0, 0)` and the
harvested set unchanged, even when the station cell also has positive
resource weight that would fit in the remaining capacity; the station cell
is never added to the harvested set. -/
theorem moveToStationUnloads (s : State) (farm : Farm) (target : Pos)
    (hv : s.is_valid_move farm target = true)
    (hst : target ∈ farm.get_collection_stations) :
    s.move_to farm target = some (State.mk target (0, 0) s.harvested) := by
  unfold State.move_to
  rw [if_neg (by simp [hv]), if_pos (by simp [hst])]
  rfl

/-- Witness for C3 on `FarmD`, whose station at `(1, 0)` has weight 5 and
volume 100, both of which would fit in the remaining capacity of a basket
loaded with `(3, 50)`: the move still unloads and harvests nothing. -/
theorem moveToStationUnloads_witness :
    (State.mk (0, 0) (3, 50) ∅).is_valid_move FarmD (1, 0) = true ∧
    (1, 0) ∈ FarmD.get_collection_stations ∧
    (State.mk (0, 0) (3, 50) ∅).move_to FarmD (1, 0) =
      some (State.mk (1, 0) (0, 0) ∅) ∧
    0 < FarmD.get_weight (1, 0) ∧
    FarmD.get_weight (1, 0) ≤ FarmD.max_weight - (State.mk (0, 0) (3, 50) ∅).weight :=
  ⟨by decide, by decide,
   moveToStationUnloads (State.mk (0, 0) (3, 50) ∅) FarmD (1, 0) (by decide) (by decide),
   by decide, by decide⟩

/-! ### Claim C4: all-or-nothing harvest via `with_harvested` -/

/-- Claim C4: `with_harvested` fails (the Python `ValueError`, here `none`)
exactly when `can_harvest_cell` is false; on success the new state has
position `pos`, the load increased by exactly the cell's full weight and
volume, and the harvested set extended by `pos`.  A cell that does not fit
is never partially reflected in the load. -/
theorem withHarvestedSpec (s : State) (farm : Farm) (pos : Pos) :
    (s.with_harvested pos farm = none ↔ s.can_harvest_cell farm pos = false) ∧
    s.with_harvested pos farm =
      (if s.can_harvest_cell farm pos = true then
        some (State.mk pos
          (s.weight + farm.get_weight pos, s.volume + farm.get_volume pos)
          (insert pos s.harvested))
      else none) := by
  unfold State.with_harvested
  by_cases hch : s.can_harvest_cell farm pos = true
  · rw [if_neg (by simp [hch]), if_pos hch]
    simp [hch]
  · rw [if_pos (by simp [hch]), if_neg hch]
    simp
    revert hch
    cases s.can_harvest_cell farm pos <;> simp

/-! ### Claim C5: an unaffordable harvestable cell is still a legal move -/

/-- Claim C5: moving onto an adjacent in-bounds non-station cell with
positive resource weight whose weight or volume exceeds the remaining
capacity succeeds, changing only the position: the load and harvested set
are those of the original state. -/
theorem moveToOverCapacity (s : State) (farm : Farm) (target : Pos)
    (hv : s.is_valid_move farm target = true)
    (hst : target ∉ farm.get_collection_stations)
    (hw : 0 < farm.get_weight target)
    (hcap : farm.max_weight - s.weight < farm.get_weight target ∨
            farm.max_volume - s.volume < farm.get_volume target) :
    s.move_to farm target = some (State.mk target s.basket_load s.harvested) := by
  have hch : s.can_harvest_cell farm target = false := by
    cases h : s.can_harvest_cell farm target
    · rfl
    · obtain ⟨_, _, _, hwc, hvc⟩ := can_harvest_elim h
      omega
  unfold State.move_to
  rw [if_neg (by simp [hv]), if_neg (by simp [hst]),
      if_neg (by rw [can_harvest_position_irrel]; simp [hch])]

/-- Witness for C5 on `FarmC`: its cell `(1, 0)` has weight 20, above the
remaining capacity 12 of the empty basket, so the move from the start goes
through without a harvest. -/
theorem moveToOverCapacity_witness :
    (initialState FarmC).is_valid_move FarmC (1, 0) = true ∧
    (1, 0) ∉ FarmC.get_collection_stations ∧
    0 < FarmC.get_weight (1, 0) ∧
    FarmC.max_weight - (initialState FarmC).weight < FarmC.get_weight (1, 0) ∧
    (initialState FarmC).move_to FarmC (1, 0) =
      some (State.mk (1, 0) (initialState FarmC).basket_load (initialState FarmC).harvested) :=
  ⟨by decide, by decide, by decide, by decide,
   moveToOverCapacity (initialState FarmC) FarmC (1, 0) (by decide) (by decide)
     (by decide) (Or.inl (by decide))⟩

/-! ### Claim C6: the harvested set grows monotonically -/

/-- Claim C6: for every transition record `(action, next, cost)` produced by
`successors`, the harvested set of the source state is a subset of that of
the successor state; along any transition chain the harvested set never
loses a member. -/
theorem harvestedMonotone (farm : Farm) (s : State) :
    (∀ l, s.successors farm 1 = some l →
      ∀ a t c, (a, t, c) ∈ l → s.harvested ⊆ t.harvested) ∧
    (∀ n t, reachN farm n s t → s.harvested ⊆ t.harvested) :=
  ⟨fun _ hl a t c hm => step_harvested_mono (stepRel_of_mem hl hm),
   fun _ t h => reachN_harvested_mono h⟩

/-- Witness for C6 on `FarmB`: one harvesting step from the initial state
extends the harvested set, which indeed contains the old (empty) one. -/
theorem harvestedMonotone_witness :
    reachN FarmB 1 (initialState FarmB) (State.mk (1, 0) (12, 1000) {(1, 0)}) ∧
    (initialState FarmB).harvested ⊆ (State.mk (1, 0) (12, 1000) {(1, 0)}).harvested :=
  have hstep : stepRel FarmB (initialState FarmB) (State.mk (1, 0) (12, 1000) {(1, 0)}) :=
    (stepRel_iff _ _ _).mpr (by decide)
  have hreach : reachN FarmB 1 (initialState FarmB) (State.mk (1, 0) (12, 1000) {(1, 0)}) :=
    ⟨_, hstep, rfl⟩
  ⟨hreach, (harvestedMonotone FarmB (initialState FarmB)).2 1 _ hreach⟩

/-! ### Claim C7: successor loads stay within the capacity bounds -/

/-- Claim C7: from a state whose load lies within `[0, max_weight]` and
`[0, max_volume]`, every successor produced by `successors` (through
`move_to`, `with_harvested`, `with_unloaded`) again has a load within these
bounds: no transition produces a load exceeding the declared maxima or
below zero. -/
theorem successorLoadBounds (farm : Farm) (s : State)
    (hw0 : 0 ≤ s.weight) (hwM : s.weight ≤ farm.max_weight)
    (hv0 : 0 ≤ s.volume) (hvM : s.volume ≤ farm.max_volume) :
    ∀ l, s.successors farm 1 = some l → ∀ a t c, (a, t, c) ∈ l →
      0 ≤ t.weight ∧ t.weight ≤ farm.max_weight ∧
      0 ≤ t.volume ∧ t.volume ≤ farm.max_volume :=
  fun _ hl a t c hm =>
    step_load_bounds (stepRel_of_mem hl hm) hw0 hwM hv0 hvM

/-- Witness for C7 on `FarmB`: the harvesting successor of the initial
state carries `(12, 1000)`, within the declared maxima `(12, 15000)`. -/
theorem successorLoadBounds_witness :
    0 ≤ (State.mk (1, 0) (12, 1000) {(1, 0)}).weight ∧
    (State.mk (1, 0) (12, 1000) {(1, 0)}).weight ≤ FarmB.max_weight ∧
    0 ≤ (State.mk (1, 0) (12, 1000) {(1, 0)}).volume ∧
    (State.mk (1, 0) (12, 1000) {(1, 0)}).volume ≤ FarmB.max_volume :=
  successorLoadBounds FarmB (initialState FarmB) (by decide) (by decide) (by decide)
    (by decide) _ rfl "MOVE (0, 0)->(1, 0)+HARVEST" (State.mk (1, 0) (12, 1000) {(1, 0)}) 1
    (by decide)

/-! ### Claim C10: a start state that is already a goal -/

/-- Claim C10: if the start state already satisfies `is_goal`, then
`a_search` returns the start state, the one-entry path carrying the
artificial START action label, and total cost zero — for any positive
amount of loop fuel (the Python loop returns on its first iteration). -/
theorem aSearchStartGoal (farm : Farm) (s : State) (hg : s.is_goal farm = true)
    (fuel : Nat) :
    a_search (fuel + 1) farm s h_combined =
      some (.ok (some s, [("START", s)], some 0)) := by
  unfold a_search runSearch initConfig a_step
  simp [popMin, alookup, hg, reconstruct_path]

/-- Witness for C10 on `FarmE`, which has no harvestable cells, so its
initial state is already a goal. -/
theorem aSearchStartGoal_witness :
    (initialState FarmE).is_goal FarmE = true ∧
    a_search 1 FarmE (initialState FarmE) h_combined =
      some (.ok (some (initialState FarmE), [("START", initialState FarmE)], some 0)) :=
  ⟨by decide, aSearchStartGoal FarmE (initialState FarmE) (by decide) 0⟩

/-! ### Association-list lemmas -/

theorem alookup_aupdate_self {α β : Type} [DecidableEq α] :
    ∀ (l : List (α × β)) (k : α) (v : β), alookup (aupdate l k v) k = some v := by
  intro l k v
  induction l with
  | nil => simp [aupdate, alookup]
  | cons e rest ih =>
    unfold aupdate
    by_cases he : e.1 = k
    · rw [if_pos he]; simp [alookup]
    · rw [if_neg he]; unfold alookup; rw [if_neg he]; exact ih

theorem alookup_aupdate_ne {α β : Type} [DecidableEq α] :
    ∀ (l : List (α × β)) (k k' : α) (v : β), k' ≠ k →
      alookup (aupdate l k v) k' = alookup l k' := by
  intro l k k' v hne
  induction l with
  | nil =>
    simp only [aupdate, alookup]
    rw [if_neg (fun h => hne h.symm)]
  | cons e rest ih =>
    unfold aupdate
    by_cases he : e.1 = k
    · rw [if_pos he]
      unfold alookup
      rw [if_neg (by intro h; exact hne (h ▸ he ▸ rfl)), if_neg (by rw [he]; intro h; exact hne h.symm)]
    · rw [if_neg he]
      unfold alookup
      by_cases he' : e.1 = k'
      · rw [if_pos he', if_pos he']
      · rw [if_neg he', if_neg he']
        exact ih

theorem aupdate_length_mem {α β : Type} [DecidableEq α] :
    ∀ (l : List (α × β)) (k : α) (v : β), (alookup l k).isSome →
      (aupdate l k v).length = l.length := by
  intro l k v h
  induction l with
  | nil => simp [alookup] at h
  | cons e rest ih =>
    unfold aupdate
    by_cases he : e.1 = k
    · rw [if_pos he]; rfl
    · rw [if_neg he]
      unfold alookup at h
      rw [if_neg he] at h
      simp [ih h]

theorem aupdate_length_new {α β : Type} [DecidableEq α] :
    ∀ (l : List (α × β)) (k : α) (v : β), alookup l k = none →
      (aupdate l k v).length = l.length + 1 := by
  intro l k v h
  induction l with
  | nil => rfl
  | cons e rest ih =>
    unfold aupdate
    unfold alookup at h
    by_cases he : e.1 = k
    · rw [if_pos he] at h; cases h
    · rw [if_neg he] at h
      rw [if_neg he]
      simp [ih h]

theorem mem_aupdate {α β : Type} [DecidableEq α] :
    ∀ {l : List (α × β)} {k : α} {v : β} {e : α × β},
      e ∈ aupdate l k v → e = (k, v) ∨ e ∈ l := by
  intro l
  induction l with
  | nil =>
    intro k v e h
    unfold aupdate at h
    rcases List.mem_singleton.mp h with rfl
    exact Or.inl rfl
  | cons e' rest ih =>
    intro k v e h
    unfold aupdate at h
    by_cases he : e'.1 = k
    · rw [if_pos he] at h
      rcases List.mem_cons.mp h with rfl | hm
      · exact Or.inl rfl
      · exact Or.inr (List.mem_cons_of_mem _ hm)
    · rw [if_neg he] at h
      rcases List.mem_cons.mp h with rfl | hm
      · exact Or.inr (List.mem_cons_self _ _)
      · rcases ih hm with h1 | h1
        · exact Or.inl h1
        · exact Or.inr (List.mem_cons_of_mem _ h1)

theorem aupdate_keys_subset {α β : Type} [DecidableEq α] :
    ∀ (l : List (α × β)) (k : α) (v : β) (x : α),
      x ∈ (aupdate l k v).map (·.1) → x = k ∨ x ∈ l.map (·.1) := by
  intro l k v x h
  obtain ⟨e, hm, he⟩ := List.mem_map.mp h
  rcases mem_aupdate hm with rfl | hm'
  · exact Or.inl he.symm
  · exact Or.inr (List.mem_map.mpr ⟨e, hm', he⟩)

theorem aupdate_keys_nodup {α β : Type} [DecidableEq α] :
    ∀ (l : List (α × β)) (k : α) (v : β), (l.map (·.1)).Nodup →
      ((aupdate l k v).map (·.1)).Nodup := by
  intro l k v h
  induction l with
  | nil => simp [aupdate]
  | cons e rest ih =>
    unfold aupdate
    by_cases he : e.1 = k
    · rw [if_pos he]
      simp only [List.map_cons, List.nodup_cons] at h ⊢
      exact ⟨by rw [← he]; exact h.1, h.2⟩
    · rw [if_neg he]
      simp only [List.map_cons, List.nodup_cons] at h ⊢
      refine ⟨?_, ih h.2⟩
      intro hc
      rcases aupdate_keys_subset rest k v e.1 hc with h1 | h1
      · exact he h1
      · exact h.1 h1

theorem alookup_isSome_aupdate {α β : Type} [DecidableEq α]
    (l : List (α × β)) (k k' : α) (v : β) :
    (alookup (aupdate l k v) k').isSome ↔ k' = k ∨ (alookup l k').isSome := by
  by_cases he : k' = k
  · subst he
    rw [alookup_aupdate_self]
    simp
  · rw [alookup_aupdate_ne _ _ _ _ he]
    simp [he]

theorem gTotal_aupdate_some :
    ∀ (l : List (State × Int)) (k : State) (old v : Int), alookup l k = some old →
      gTotal (aupdate l k v) = gTotal l + v - old := by
  intro l k old v h
  induction l with
  | nil => simp [alookup] at h
  | cons e rest ih =>
    unfold aupdate
    unfold alookup at h
    by_cases he : e.1 = k
    · rw [if_pos he] at h ⊢
      cases h
      simp [gTotal]
      ring
    · rw [if_neg he] at h ⊢
      have := ih h
      simp only [gTotal, List.map_cons, List.sum_cons] at this ⊢
      omega

theorem gTotal_aupdate_none :
    ∀ (l : List (State × Int)) (k : State) (v : Int), alookup l k = none →
      gTotal (aupdate l k v) = gTotal l + v := by
  intro l k v h
  induction l with
  | nil => simp [aupdate, gTotal, alookup]
  | cons e rest ih =>
    unfold aupdate
    unfold alookup at h
    by_cases he : e.1 = k
    · rw [if_pos he] at h; cases h
    · rw [if_neg he] at h ⊢
      have := ih h
      simp only [gTotal, List.map_cons, List.sum_cons] at this ⊢
      omega

theorem gTotal_nonneg {l : List (State × Int)} (h : ∀ e ∈ l, 0 ≤ e.2) :
    0 ≤ gTotal l := by
  induction l with
  | nil => simp [gTotal]
  | cons e rest ih =>
    simp only [gTotal, List.map_cons, List.sum_cons]
    have h1 := h e (List.mem_cons_self _ _)
    have h2 := ih (fun x hx => h x (List.mem_cons_of_mem _ hx))
    unfold gTotal at h2
    omega

/-! ### Heap-extraction lemmas -/

theorem popMin_none : ∀ {l : List (Int × Nat × State)}, popMin l = none ↔ l = [] := by
  intro l
  cases l with
  | nil => simp [popMin]
  | cons e es =>
    simp only [popMin]
    cases popMin es with
    | none => simp
    | some p =>
      obtain ⟨m, rest⟩ := p
      by_cases hle : heapLe (e.1, e.2.1) (m.1, m.2.1) = true
      · simp [hle]
      · simp [hle]

theorem popMin_spec :
    ∀ {l : List (Int × Nat × State)} {e rest}, popMin l = some (e, rest) →
      e ∈ l ∧ (∀ x ∈ rest, x ∈ l) ∧ rest.length + 1 = l.length := by
  intro l
  induction l with
  | nil => intro e rest h; simp [popMin] at h
  | cons hd tl ih =>
    intro e rest h
    simp only [popMin] at h
    cases hp : popMin tl with
    | none =>
      rw [hp] at h
      cases h
      have : tl = [] := popMin_none.mp hp
      subst this
      exact ⟨List.mem_cons_self _ _, by simp, rfl⟩
    | some p =>
      obtain ⟨m, rest'⟩ := p
      rw [hp] at h
      dsimp only at h
      obtain ⟨hm, hsub, hlen⟩ := ih hp
      by_cases hle : heapLe (hd.1, hd.2.1) (m.1, m.2.1) = true
      · rw [if_pos hle] at h
        cases h
        exact ⟨List.mem_cons_self _ _, fun x hx => List.mem_cons_of_mem _ hx, rfl⟩
      · rw [if_neg hle] at h
        cases h
        refine ⟨List.mem_cons_of_mem _ hm, ?_, ?_⟩
        · intro x hx
          rcases List.mem_cons.mp hx with rfl | hx'
          · exact List.mem_cons_self _ _
          · exact List.mem_cons_of_mem _ (hsub x hx')
        · simp only [List.length_cons]
          omega

/-! ### State-space bound and reachability lemmas -/

theorem in_bounds_mem_all_cells {farm : Farm} {pos : Pos}
    (h : farm.in_bounds pos = true) : pos ∈ farm.all_cells := by
  obtain ⟨c, hmem, _, _⟩ := in_bounds_elim h
  exact List.mem_map.mpr ⟨(pos, c), hmem, rfl⟩

theorem is_valid_move_elim {s : State} {farm : Farm} {target : Pos}
    (h : s.is_valid_move farm target = true) :
    farm.in_bounds target = true ∧ target ∈ farm.get_neighbors s.position := by
  unfold State.is_valid_move at h
  simp only [Bool.and_eq_true, decide_eq_true_eq] at h
  exact h

theorem get_neighbors_elim {farm : Farm} {pos npos : Pos}
    (h : npos ∈ farm.get_neighbors pos) :
    farm.in_bounds npos = true ∧
    ∃ d ∈ Farm.directions, npos = (pos.1 + d.1, pos.2 + d.2) := by
  unfold Farm.get_neighbors at h
  obtain ⟨d, hd, hif⟩ := List.mem_filterMap.mp h
  by_cases hib : farm.in_bounds (pos.1 + d.1, pos.2 + d.2) = true
  · rw [if_pos hib] at hif
    cases hif
    exact ⟨hib, d, hd, rfl⟩
  · rw [if_neg hib] at hif
    cases hif

theorem mem_stateSpace_iff {farm : Farm} {start s : State} :
    s ∈ stateSpace farm start ↔
      (s.position ∈ insert start.position farm.all_cells.toFinset ∧
       (min start.weight 0 ≤ s.weight ∧ s.weight ≤ max farm.max_weight start.weight) ∧
       (min start.volume 0 ≤ s.volume ∧ s.volume ≤ max farm.max_volume start.volume) ∧
       s.harvested ⊆ start.harvested ∪ farm.all_cells.toFinset) := by
  unfold stateSpace
  rw [Finset.mem_image]
  constructor
  · rintro ⟨⟨p, ⟨lw, lv⟩, hv⟩, hmem, rfl⟩
    simp only [Finset.mem_product, Finset.mem_Icc, Finset.mem_powerset] at hmem
    exact ⟨hmem.1, ⟨hmem.2.1.1.1, hmem.2.1.1.2⟩, ⟨hmem.2.1.2.1, hmem.2.1.2.2⟩, hmem.2.2⟩
  · rintro ⟨h1, h2, h3, h4⟩
    refine ⟨(s.position, s.basket_load, s.harvested), ?_, rfl⟩
    simp only [Finset.mem_product, Finset.mem_Icc, Finset.mem_powerset]
    exact ⟨h1, ⟨⟨h2.1, h2.2⟩, ⟨h3.1, h3.2⟩⟩, h4⟩

theorem start_mem_stateSpace (farm : Farm) (start : State) :
    start ∈ stateSpace farm start :=
  mem_stateSpace_iff.mpr
    ⟨Finset.mem_insert_self _ _,
     ⟨min_le_left _ _, le_max_right _ _⟩,
     ⟨min_le_left _ _, le_max_right _ _⟩,
     Finset.subset_union_left⟩

theorem step_stateSpace {farm : Farm} {start s t : State}
    (hs : s ∈ stateSpace farm start) (hst : stepRel farm s t) :
    t ∈ stateSpace farm start := by
  obtain ⟨hp, hw, hv, hh⟩ := mem_stateSpace_iff.mp hs
  obtain ⟨npos, hnp, hvm, hc⟩ := stepRel_cases hst
  obtain ⟨hib, _⟩ := is_valid_move_elim hvm
  have hposmem : npos ∈ insert start.position farm.all_cells.toFinset :=
    Finset.mem_insert_of_mem (List.mem_toFinset.mpr (in_bounds_mem_all_cells hib))
  rcases hc with ⟨_, rfl⟩ | ⟨_, hch, rfl⟩ | ⟨_, _, rfl⟩
  · refine mem_stateSpace_iff.mpr ⟨hposmem, ⟨?_, ?_⟩, ⟨?_, ?_⟩, hh⟩
    · exact min_le_right _ _
    · exact le_trans farm.max_weight_nonneg (le_max_left _ _)
    · exact min_le_right _ _
    · exact le_trans farm.max_volume_nonneg (le_max_left _ _)
  · obtain ⟨hib2, hwpos, _, hwcap, hvcap⟩ := can_harvest_elim hch
    have hvnn := get_volume_nonneg hib2
    refine mem_stateSpace_iff.mpr ⟨hposmem, ⟨?_, ?_⟩, ⟨?_, ?_⟩, ?_⟩
    · show min start.weight 0 ≤ s.weight + farm.get_weight npos
      have := hw.1
      omega
    · show s.weight + farm.get_weight npos ≤ max farm.max_weight start.weight
      have := le_max_left farm.max_weight start.weight
      omega
    · show min start.volume 0 ≤ s.volume + farm.get_volume npos
      have := hv.1
      omega
    · show s.volume + farm.get_volume npos ≤ max farm.max_volume start.volume
      have := le_max_left farm.max_volume start.volume
      omega
    · exact Finset.insert_subset
        (Finset.mem_union_right _ (List.mem_toFinset.mpr (in_bounds_mem_all_cells hib2))) hh
  · exact mem_stateSpace_iff.mpr ⟨hposmem, hw, hv, hh⟩

theorem reachN_snoc {farm : Farm} :
    ∀ {n : Nat} {start s t : State}, reachN farm n start s → stepRel farm s t →
      reachN farm (n + 1) start t := by
  intro n
  induction n with
  | zero =>
    intro start s t h hst
    cases h
    exact ⟨t, hst, rfl⟩
  | succ n ih =>
    intro start s t h hst
    obtain ⟨m, h1, h2⟩ := h
    exact ⟨m, h1, ih h2 hst⟩

theorem stepRel_position_ne {farm : Farm} {s t : State} (h : stepRel farm s t) :
    t.position ≠ s.position := by
  obtain ⟨npos, hnp, _, hc⟩ := stepRel_cases h
  obtain ⟨_, d, hd, hdeq⟩ := get_neighbors_elim hnp
  have hpos : t.position = npos := by
    rcases hc with ⟨_, rfl⟩ | ⟨_, _, rfl⟩ | ⟨_, _, rfl⟩ <;> rfl
  rw [hpos, hdeq]
  simp only [Farm.directions, List.mem_cons, List.mem_singleton] at hd
  rcases hd with rfl | rfl | rfl | rfl | rfl | rfl | h0 <;>
    first
      | (intro heq
         have h1 := congrArg Prod.fst heq
         have h2 := congrArg Prod.snd heq
         simp only at h1 h2
         omega)
      | cases h0

theorem stepRel_ne {farm : Farm} {s t : State} (h : stepRel farm s t) : t ≠ s :=
  fun heq => stepRel_position_ne h (by rw [heq])

/-! ### Preservation of the search invariant by one push -/

theorem mem_aupdate_nodup {α β : Type} [DecidableEq α] :
    ∀ {l : List (α × β)} {k : α} {v : β} {e : α × β},
      (l.map (·.1)).Nodup → e ∈ aupdate l k v → e = (k, v) ∨ (e ∈ l ∧ e.1 ≠ k) := by
  intro l
  induction l with
  | nil =>
    intro k v e _ h
    unfold aupdate at h
    rcases List.mem_singleton.mp h with rfl
    exact Or.inl rfl
  | cons e' rest ih =>
    intro k v e hnd h
    simp only [List.map_cons, List.nodup_cons] at hnd
    unfold aupdate at h
    by_cases he : e'.1 = k
    · rw [if_pos he] at h
      rcases List.mem_cons.mp h with rfl | hm
      · exact Or.inl rfl
      · refine Or.inr ⟨List.mem_cons_of_mem _ hm, ?_⟩
        intro hk
        exact hnd.1 (List.mem_map.mpr ⟨e, hm, by rw [hk]; exact he.symm⟩)
    · rw [if_neg he] at h
      rcases List.mem_cons.mp h with rfl | hm
      · exact Or.inr ⟨List.mem_cons_self _ _, he⟩
      · rcases ih hnd.2 hm with h1 | ⟨h1, h2⟩
        · exact Or.inl h1
        · exact Or.inr ⟨List.mem_cons_of_mem _ h1, h2⟩

theorem glen_le {farm : Farm} {start : State} {cfg : Config}
    (hI : SearchInv farm start cfg) :
    cfg.g_score.length ≤ stateCard farm start := by
  have hnd := hI.g_nodup
  have h1 : (cfg.g_score.map (·.1)).toFinset.card = (cfg.g_score.map (·.1)).length :=
    List.toFinset_card_of_nodup hnd
  have h2 : (cfg.g_score.map (·.1)).toFinset ⊆ stateSpace farm start := by
    intro x hx
    obtain ⟨e, he, rfl⟩ := List.mem_map.mp (List.mem_toFinset.mp hx)
    exact hI.space e he
  have h3 := Finset.card_le_card h2
  unfold stateCard
  rw [h1] at h3
  rw [List.length_map] at h3
  exact h3

theorem searchMeasure_nonneg {farm : Farm} {start : State} {cfg : Config}
    (hI : SearchInv farm start cfg) :
    0 ≤ searchMeasure (stateCard farm start) cfg := by
  have h1 : 0 ≤ gTotal cfg.g_score :=
    gTotal_nonneg (fun e he => (hI.g_bounds e he).1)
  have h2 : (cfg.g_score.length : Int) ≤ (stateCard farm start : Int) := by
    exact_mod_cast glen_le hI
  have h3 : (0 : Int) ≤ (stateCard farm start : Int) := by positivity
  have h4 : (0 : Int) ≤
      2 * (stateCard farm start : Int) *
        ((stateCard farm start : Int) - (cfg.g_score.length : Int)) := by
    apply mul_nonneg (by linarith)
    linarith
  unfold searchMeasure
  have h5 : (0 : Int) ≤ cfg.open_heap.length := by positivity
  linarith

theorem pushSucc_eq_skip {farm : Farm} {h : HeuristicFn} {current : State}
    {current_g : Int} {cfg : Config} {e : String × State × Int} {old : Int}
    (halo : alookup cfg.g_score e.2.1 = some old)
    (hle : old ≤ current_g + e.2.2) :
    pushSucc farm h current current_g cfg e = cfg := by
  unfold pushSucc
  rw [halo]
  simp [hle]

theorem pushSucc_eq_push {farm : Farm} {h : HeuristicFn} {current : State}
    {current_g : Int} {cfg : Config} {e : String × State × Int}
    (hok : ∀ old, alookup cfg.g_score e.2.1 = some old → current_g + e.2.2 < old) :
    pushSucc farm h current current_g cfg e =
      { g_score := aupdate cfg.g_score e.2.1 (current_g + e.2.2),
        came_from := aupdate cfg.came_from e.2.1 (some current, e.1, e.2.2),
        counter := cfg.counter + 1,
        open_heap := cfg.open_heap ++
          [(current_g + e.2.2 + h e.2.1 farm, cfg.counter + 1, e.2.1)] } := by
  unfold pushSucc
  cases halo : alookup cfg.g_score e.2.1 with
  | none => simp
  | some old =>
    have := hok old halo
    simp [not_le.mpr this]

theorem push_core {farm : Farm} {h : HeuristicFn} {start current : State}
    {current_g : Int} {cfg : Config} {a : String} {ns : State}
    (hI : SearchInv farm start cfg)
    (hcur : alookup cfg.g_score current = some current_g)
    (hstep : stepRel farm current ns)
    (hok : ∀ old, alookup cfg.g_score ns = some old → current_g + 1 < old) :
    SearchInv farm start
      { g_score := aupdate cfg.g_score ns (current_g + 1),
        came_from := aupdate cfg.came_from ns (some current, a, 1),
        counter := cfg.counter + 1,
        open_heap := cfg.open_heap ++
          [(current_g + 1 + h ns farm, cfg.counter + 1, ns)] } ∧
    searchMeasure (stateCard farm start)
      { g_score := aupdate cfg.g_score ns (current_g + 1),
        came_from := aupdate cfg.came_from ns (some current, a, 1),
        counter := cfg.counter + 1,
        open_heap := cfg.open_heap ++
          [(current_g + 1 + h ns farm, cfg.counter + 1, ns)] } ≤
      searchMeasure (stateCard farm start) cfg ∧
    alookup (aupdate cfg.g_score ns (current_g + 1)) current = some current_g := by
  have hcur_mem := alookup_mem hcur
  obtain ⟨ncur, hncur, hreach⟩ := hI.sound _ hcur_mem
  have hspace_cur := hI.space _ hcur_mem
  have hns_space := step_stateSpace hspace_cur hstep
  have hne : ns ≠ current := stepRel_ne hstep
  have hcurb := hI.g_bounds _ hcur_mem
  have hlen_mono : cfg.g_score.length ≤ (aupdate cfg.g_score ns (current_g + 1)).length := by
    cases halo : alookup cfg.g_score ns with
    | none => rw [aupdate_length_new _ _ _ halo]; omega
    | some _ => rw [aupdate_length_mem _ _ _ (by rw [halo]; rfl)]
  have hI' : SearchInv farm start
      { g_score := aupdate cfg.g_score ns (current_g + 1),
        came_from := aupdate cfg.came_from ns (some current, a, 1),
        counter := cfg.counter + 1,
        open_heap := cfg.open_heap ++
          [(current_g + 1 + h ns farm, cfg.counter + 1, ns)] } := by
    refine ⟨?_, ?_, ?_, ?_, ?_, ?_, ?_, ?_, ?_⟩
    · -- heap_keys
      intro x hx
      rcases List.mem_append.mp hx with hx1 | hx2
      · exact (alookup_isSome_aupdate _ _ _ _).mpr (Or.inr (hI.heap_keys x hx1))
      · rcases List.mem_singleton.mp hx2 with rfl
        simp [alookup_aupdate_self]
    · exact aupdate_keys_nodup _ _ _ hI.g_nodup
    · exact aupdate_keys_nodup _ _ _ hI.cf_nodup
    · -- keys_iff
      intro st
      rw [alookup_isSome_aupdate, alookup_isSome_aupdate]
      exact or_congr Iff.rfl (hI.keys_iff st)
    · -- len_eq
      cases halo : alookup cfg.g_score ns with
      | none =>
        have hcf : alookup cfg.came_from ns = none := by
          cases h' : alookup cfg.came_from ns with
          | none => rfl
          | some _ =>
            have := (hI.keys_iff ns).mpr (by rw [h']; rfl)
            rw [halo] at this
            cases this
        simp only
        rw [aupdate_length_new cfg.came_from ns (some current, a, 1) hcf,
            aupdate_length_new cfg.g_score ns (current_g + 1) halo, hI.len_eq]
      | some old =>
        have hcf : (alookup cfg.came_from ns).isSome :=
          (hI.keys_iff ns).mp (by rw [halo]; rfl)
        simp only
        rw [aupdate_length_mem cfg.came_from ns (some current, a, 1) hcf,
            aupdate_length_mem cfg.g_score ns (current_g + 1) (by rw [halo]; rfl),
            hI.len_eq]
    · -- g_bounds
      intro x hx
      rcases mem_aupdate hx with rfl | hxold
      · refine ⟨by show 0 ≤ current_g + 1; omega, ?_⟩
        show current_g + 1 < ((aupdate cfg.g_score ns (current_g + 1)).length : Int)
        cases halo : alookup cfg.g_score ns with
        | none =>
          rw [aupdate_length_new _ _ _ halo]
          have := hcurb.2
          push_cast
          omega
        | some old =>
          have hlt := hok old halo
          have hob := (hI.g_bounds _ (alookup_mem halo)).2
          rw [aupdate_length_mem _ _ _ (by rw [halo]; rfl)]
          omega
      · have hb := hI.g_bounds x hxold
        exact ⟨hb.1, lt_of_lt_of_le hb.2 (by exact_mod_cast hlen_mono)⟩
    · -- parent_lt
      intro x hx p hp
      rcases mem_aupdate_nodup hI.cf_nodup hx with rfl | ⟨hxold, hxkey⟩
      · cases hp
        refine ⟨current_g + 1, current_g, alookup_aupdate_self _ _ _, ?_, by omega⟩
        rw [alookup_aupdate_ne _ _ _ _ (Ne.symm hne)]
        exact hcur
      · obtain ⟨gs, gp, hgs, hgp, hlt⟩ := hI.parent_lt x hxold p hp
        have hgs' : alookup (aupdate cfg.g_score ns (current_g + 1)) x.1 = some gs := by
          rw [alookup_aupdate_ne _ _ _ _ hxkey]; exact hgs
        by_cases hpns : p = ns
        · subst hpns
          have hlt2 := hok gp hgp
          exact ⟨gs, current_g + 1, hgs', alookup_aupdate_self _ _ _, by omega⟩
        · exact ⟨gs, gp, hgs', by rw [alookup_aupdate_ne _ _ _ _ hpns]; exact hgp, hlt⟩
    · -- sound
      intro x hx
      rcases mem_aupdate hx with rfl | hxold
      · exact ⟨ncur + 1, by show current_g + 1 = ((ncur + 1 : Nat) : Int); push_cast; omega,
               reachN_snoc hreach hstep⟩
      · exact hI.sound x hxold
    · -- space
      intro x hx
      rcases mem_aupdate hx with rfl | hxold
      · exact hns_space
      · exact hI.space x hxold
  refine ⟨hI', ?_, by rw [alookup_aupdate_ne _ _ _ _ (Ne.symm hne)]; exact hcur⟩
  have hNlen : (aupdate cfg.g_score ns (current_g + 1)).length ≤ stateCard farm start :=
    glen_le hI'
  have htgb :=
    (hI'.g_bounds (ns, current_g + 1) (alookup_mem (alookup_aupdate_self _ _ _))).2
  cases halo : alookup cfg.g_score ns with
  | none =>
    have hlen := aupdate_length_new cfg.g_score ns (current_g + 1) halo
    have hgt := gTotal_aupdate_none cfg.g_score ns (current_g + 1) halo
    unfold searchMeasure
    simp only [hgt, hlen, List.length_append, List.length_cons, List.length_nil]
    have hN : ((cfg.g_score.length : Int) + 1) ≤ (stateCard farm start : Int) := by
      exact_mod_cast hlen ▸ hNlen
    have htgb2 : current_g + 1 < (cfg.g_score.length : Int) + 1 := by
      have := htgb
      simp only [hlen] at this
      exact_mod_cast this
    have key : (2 : Int) * (stateCard farm start) *
        ((stateCard farm start : Int) - ((cfg.g_score.length : Int) + 1)) =
        2 * (stateCard farm start) *
        ((stateCard farm start : Int) - (cfg.g_score.length : Int)) -
        2 * (stateCard farm start) := by ring
    push_cast
    push_cast at key
    rw [key]
    linarith
  | some old =>
    have hlt := hok old halo
    have hlen := aupdate_length_mem cfg.g_score ns (current_g + 1) (by rw [halo]; rfl)
    have hgt := gTotal_aupdate_some cfg.g_score ns old (current_g + 1) halo
    unfold searchMeasure
    simp only [hgt, hlen, List.length_append, List.length_cons, List.length_nil]
    push_cast
    linarith

theorem pushSucc_preserves {farm : Farm} {h : HeuristicFn} {start current : State}
    {current_g : Int} {cfg : Config} {e : String × State × Int}
    (hI : SearchInv farm start cfg)
    (hcur : alookup cfg.g_score current = some current_g)
    (hstep : stepRel farm current e.2.1) (hcost : e.2.2 = 1) :
    SearchInv farm start (pushSucc farm h current current_g cfg e) ∧
    searchMeasure (stateCard farm start) (pushSucc farm h current current_g cfg e) ≤
      searchMeasure (stateCard farm start) cfg ∧
    alookup (pushSucc farm h current current_g cfg e).g_score current = some current_g := by
  obtain ⟨a, ns, c⟩ := e
  simp only at hstep hcost
  subst hcost
  cases halo : alookup cfg.g_score ns with
  | some old =>
    by_cases hle : old ≤ current_g + 1
    · rw [pushSucc_eq_skip halo hle]
      exact ⟨hI, le_refl _, hcur⟩
    · have hok : ∀ o, alookup cfg.g_score ns = some o → current_g + 1 < o := by
        intro o ho
        rw [halo] at ho
        cases ho
        omega
      rw [pushSucc_eq_push hok]
      exact push_core hI hcur hstep hok
  | none =>
    have hok : ∀ o, alookup cfg.g_score ns = some o → current_g + 1 < o := by
      intro o ho
      rw [halo] at ho
      cases ho
    rw [pushSucc_eq_push hok]
    exact push_core hI hcur hstep hok

theorem expand_preserves {farm : Farm} {h : HeuristicFn} {start current : State}
    {current_g : Int} :
    ∀ (succs : List (String × State × Int)) (cfg : Config),
      SearchInv farm start cfg →
      alookup cfg.g_score current = some current_g →
      (∀ e ∈ succs, stepRel farm current e.2.1 ∧ e.2.2 = 1) →
      SearchInv farm start (expandNode farm h current current_g succs cfg) ∧
      searchMeasure (stateCard farm start) (expandNode farm h current current_g succs cfg) ≤
        searchMeasure (stateCard farm start) cfg := by
  intro succs
  induction succs with
  | nil =>
    intro cfg hI _ _
    exact ⟨hI, le_refl _⟩
  | cons e rest ih =>
    intro cfg hI hcur hall
    have he := hall e (List.mem_cons_self _ _)
    obtain ⟨hI1, hm1, hcur1⟩ := pushSucc_preserves (h := h) hI hcur he.1 he.2
    have hrest := ih (pushSucc farm h current current_g cfg e) hI1 hcur1
      (fun x hx => hall x (List.mem_cons_of_mem _ hx))
    unfold expandNode at hrest ⊢
    rw [List.foldl_cons]
    exact ⟨hrest.1, le_trans hrest.2 hm1⟩

theorem successors_all_step {s : State} {farm : Farm} {l : List (String × State × Int)}
    (hl : s.successors farm 1 = some l) :
    ∀ e ∈ l, stepRel farm s e.2.1 ∧ e.2.2 = 1 := by
  intro e he
  obtain ⟨npos, _, _, _, heq⟩ := succRun_mem hl he
  refine ⟨⟨l, hl, e.1, e.2.2, he⟩, ?_⟩
  have := congrArg (fun x => x.2.2) heq
  simpa using this

theorem reconstruct_path_some
    {cf : List (State × (Option State × String × Int))} {g : List (State × Int)}
    (hrel : ∀ e ∈ cf, ∀ p : State, e.2.1 = some p →
      ∃ gs gp, alookup g e.1 = some gs ∧ alookup g p = some gp ∧ gp < gs)
    (hbnd : ∀ e ∈ g, 0 ≤ e.2) :
    ∀ (fuel : Nat) (s : State) (gs : Int), alookup g s = some gs → gs < (fuel : Int) →
      ∀ acc, (reconstruct_path cf fuel (some s) acc).isSome := by
  intro fuel
  induction fuel with
  | zero =>
    intro s gs hgs hlt acc
    have := hbnd _ (alookup_mem hgs)
    simp only at this
    omega
  | succ n ihf =>
    intro s gs hgs hlt acc
    unfold reconstruct_path
    cases hcf : alookup cf s with
    | none => simp
    | some r =>
      obtain ⟨parent, action, sc⟩ := r
      simp only
      cases parent with
      | none => simp [reconstruct_path]
      | some p =>
        obtain ⟨gs', gp, hgs', hgp, hlt'⟩ := hrel _ (alookup_mem hcf) p rfl
        have hgseq : gs' = gs := by
          rw [hgs] at hgs'
          cases hgs'
          rfl
        subst hgseq
        exact ihf p gp hgp (by push_cast at hlt ⊢; omega) ((action, s) :: acc)

theorem a_step_spec {farm : Farm} {h : HeuristicFn} {start : State} {cfg : Config}
    (hI : SearchInv farm start cfg) :
    (∀ msg, a_step farm h cfg ≠ .error msg) ∧
    (∀ cfg', a_step farm h cfg = .ok (.inl cfg') →
      SearchInv farm start cfg' ∧
      searchMeasure (stateCard farm start) cfg' ≤
        searchMeasure (stateCard farm start) cfg - 1) ∧
    (∀ r, a_step farm h cfg = .ok (.inr r) → ResultSpec farm start r) := by
  cases hpop : popMin cfg.open_heap with
  | none =>
    have hval : a_step farm h cfg = .ok (.inr (none, [], none)) := by
      unfold a_step
      rw [hpop]
    refine ⟨fun msg hmsg => ?_, fun cfg' hc => ?_, fun r hr => ?_⟩
    · rw [hval] at hmsg; cases hmsg
    · rw [hval] at hc; cases hc
    · rw [hval] at hr; cases hr; exact Or.inl rfl
  | some p =>
    obtain ⟨⟨f, ctr, current⟩, heap'⟩ := p
    obtain ⟨hmem, hsub, hlen⟩ := popMin_spec hpop
    have hkey := hI.heap_keys _ hmem
    simp only at hkey
    cases hcur : alookup cfg.g_score current with
    | none =>
      rw [hcur] at hkey
      cases hkey
    | some current_g =>
      by_cases hg : current.is_goal farm = true
      · -- goal reached: the loop returns a sound result
        obtain ⟨ncur, hncur, hreach⟩ := hI.sound _ (alookup_mem hcur)
        simp only at hncur hreach
        have hrec : (reconstruct_path cfg.came_from (cfg.came_from.length + 1)
            (some current) []).isSome := by
          refine reconstruct_path_some hI.parent_lt (fun e he => (hI.g_bounds e he).1)
            (cfg.came_from.length + 1) current current_g hcur ?_ []
          have hb := (hI.g_bounds _ (alookup_mem hcur)).2
          simp only at hb
          have hle := hI.len_eq
          push_cast
          omega
        cases hrecv : reconstruct_path cfg.came_from (cfg.came_from.length + 1)
            (some current) [] with
        | none =>
          rw [hrecv] at hrec
          cases hrec
        | some path =>
          have hval : a_step farm h cfg =
              .ok (.inr (some current, path, some current_g)) := by
            unfold a_step
            rw [hpop]
            dsimp only
            rw [hcur]
            dsimp only
            rw [if_pos hg, hrecv]
          refine ⟨fun msg hmsg => ?_, fun cfg' hc => ?_, fun r hr => ?_⟩
          · rw [hval] at hmsg; cases hmsg
          · rw [hval] at hc; cases hc
          · rw [hval] at hr
            cases hr
            exact Or.inr ⟨current, path, current_g, rfl, hg, ncur, hncur, hreach⟩
      · -- expansion step
        cases hsucc : current.successors farm 1 with
        | none =>
          have := successors_isSome current farm 1
          rw [hsucc] at this
          cases this
        | some succs =>
          have hval : a_step farm h cfg =
              .ok (.inl (expandNode farm h current current_g succs
                { cfg with open_heap := heap' })) := by
            unfold a_step
            rw [hpop]
            dsimp only
            rw [hcur]
            dsimp only
            rw [if_neg hg, hsucc]
          have hIpop : SearchInv farm start { cfg with open_heap := heap' } :=
            ⟨fun e he => hI.heap_keys e (hsub e he), hI.g_nodup, hI.cf_nodup,
             hI.keys_iff, hI.len_eq, hI.g_bounds, hI.parent_lt, hI.sound, hI.space⟩
          have hexp := expand_preserves (h := h) succs _ hIpop hcur
            (successors_all_step hsucc)
          have hpopm : searchMeasure (stateCard farm start) { cfg with open_heap := heap' } =
              searchMeasure (stateCard farm start) cfg - 1 := by
            unfold searchMeasure
            have key : (heap'.length : Int) = (cfg.open_heap.length : Int) - 1 := by
              push_cast
              omega
            simp only
            linarith
          refine ⟨fun msg hmsg => ?_, fun cfg' hc => ?_, fun r hr => ?_⟩
          · rw [hval] at hmsg; cases hmsg
          · rw [hval] at hc
            cases hc
            exact ⟨hexp.1, by rw [← hpopm]; exact hexp.2⟩
          · rw [hval] at hr; cases hr

theorem initConfig_inv (farm : Farm) (h : HeuristicFn) (start : State) :
    SearchInv farm start (initConfig farm h start) := by
  refine ⟨?_, ?_, ?_, ?_, ?_, ?_, ?_, ?_, ?_⟩
  · intro e he
    rcases List.mem_singleton.mp he with rfl
    simp [initConfig, alookup]
  · simp [initConfig]
  · simp [initConfig]
  · intro st
    by_cases hst : start = st
    · subst hst
      simp [initConfig, alookup]
    · simp [initConfig, alookup, hst]
  · rfl
  · intro e he
    rcases List.mem_singleton.mp he with rfl
    simp [initConfig]
  · intro e he p hp
    rcases List.mem_singleton.mp he with rfl
    cases hp
  · intro e he
    rcases List.mem_singleton.mp he with rfl
    exact ⟨0, rfl, rfl⟩
  · intro e he
    rcases List.mem_singleton.mp he with rfl
    exact start_mem_stateSpace farm start

theorem runSearch_spec {farm : Farm} {h : HeuristicFn} {start : State} :
    ∀ (fuel : Nat) (cfg : Config), SearchInv farm start cfg →
      (∀ msg, runSearch farm h fuel cfg ≠ some (.error msg)) ∧
      (∀ r, runSearch farm h fuel cfg = some (.ok r) → ResultSpec farm start r) := by
  intro fuel
  induction fuel with
  | zero =>
    intro cfg _
    exact ⟨fun msg hmsg => (by cases hmsg), fun r hr => (by cases hr)⟩
  | succ n ih =>
    intro cfg hI
    obtain ⟨herr, hcont, hres⟩ := a_step_spec (h := h) hI
    unfold runSearch
    cases hstep : a_step farm h cfg with
    | error msg => exact absurd hstep (herr msg)
    | ok v =>
      cases v with
      | inr r =>
        refine ⟨fun msg hmsg => (by cases hmsg), fun r' hr' => ?_⟩
        cases hr'
        exact hres r hstep
      | inl cfg' => exact ih cfg' (hcont cfg' hstep).1

theorem runSearch_terminates {farm : Farm} {h : HeuristicFn} {start : State} :
    ∀ (fuel : Nat) (cfg : Config), SearchInv farm start cfg →
      searchMeasure (stateCard farm start) cfg < (fuel : Int) →
      (runSearch farm h fuel cfg).isSome := by
  intro fuel
  induction fuel with
  | zero =>
    intro cfg hI hlt
    have := searchMeasure_nonneg hI
    simp only [Nat.cast_zero] at hlt
    omega
  | succ n ih =>
    intro cfg hI hlt
    obtain ⟨herr, hcont, hres⟩ := a_step_spec (h := h) hI
    unfold runSearch
    cases hstep : a_step farm h cfg with
    | error msg => rfl
    | ok v =>
      cases v with
      | inr r => rfl
      | inl cfg' =>
        obtain ⟨hI', hm'⟩ := hcont cfg' hstep
        refine ih cfg' hI' ?_
        push_cast at hlt ⊢
        omega

theorem is_goal_elim {s : State} {farm : Farm} (h : s.is_goal farm = true) :
    ∀ p ∈ farm.all_cells, 0 < farm.get_weight p → p ∈ s.harvested := by
  unfold State.is_goal at h
  rw [List.all_eq_true] at h
  intro p hp hw
  have hx := h p hp
  rw [if_pos hw] at hx
  exact of_decide_eq_true hx

theorem is_goal_false_elim {s : State} {farm : Farm} (h : s.is_goal farm = false) :
    ∃ p ∈ farm.all_cells, 0 < farm.get_weight p ∧ p ∉ s.harvested := by
  unfold State.is_goal at h
  rw [List.all_eq_false] at h
  obtain ⟨p, hp, hfail⟩ := h
  by_cases hw : 0 < farm.get_weight p
  · rw [if_pos hw] at hfail
    exact ⟨p, hp, hw, fun hmem => hfail (by simp [hmem])⟩
  · rw [if_neg hw] at hfail
    simp at hfail

/-! ### Claim C8: termination and the no-solution result -/

/-- Claim C8: on every farm (all of which have finitely many cells) the
search loop of `a_search` terminates — some fuel makes the embedded loop
return — and when no reachable state satisfies `is_goal`, the frontier is
exhausted and the normal no-solution triple (no goal state, empty path,
infinite cost, embedded as `(none, [], none)`) is returned rather than an
exception being raised. -/
theorem aSearchTerminates (farm : Farm) (start : State) (h : HeuristicFn) :
    (∃ fuel r, a_search fuel farm start h = some (.ok r)) ∧
    ((¬ ∃ (n : Nat) (t : State), reachN farm n start t ∧ t.is_goal farm = true) →
      ∃ fuel, a_search fuel farm start h = some (.ok (none, [], none))) := by
  have hI0 := initConfig_inv farm h start
  have hnn := searchMeasure_nonneg hI0
  have hlt : searchMeasure (stateCard farm start) (initConfig farm h start) <
      (((searchMeasure (stateCard farm start) (initConfig farm h start)).toNat + 1 : Nat) : Int) := by
    have hle := Int.self_le_toNat
      (searchMeasure (stateCard farm start) (initConfig farm h start))
    push_cast
    omega
  have hsome := runSearch_terminates (h := h)
    ((searchMeasure (stateCard farm start) (initConfig farm h start)).toNat + 1) _ hI0 hlt
  obtain ⟨out, hout⟩ := Option.isSome_iff_exists.mp hsome
  obtain ⟨herr, hok⟩ := runSearch_spec (h := h)
    ((searchMeasure (stateCard farm start) (initConfig farm h start)).toNat + 1) _ hI0
  cases out with
  | error msg => exact absurd hout (herr msg)
  | ok r =>
    constructor
    · exact ⟨_, r, hout⟩
    · intro hng
      rcases hok r hout with hr | ⟨g, path, c, hreq, hgoal, n, _, hreach⟩
      · subst hr
        exact ⟨_, hout⟩
      · exact absurd ⟨n, g, hreach, hgoal⟩ hng

/-- No state reachable from the initial state of `FarmC` is a goal: its
only resource cell weighs 20, which exceeds the capacity 12, so it can
never enter the harvested set. -/
theorem farmC_no_goal :
    ¬ ∃ (n : Nat) (t : State),
        reachN FarmC n (initialState FarmC) t ∧ t.is_goal FarmC = true := by
  have key : ∀ (n : Nat) (s t : State), reachN FarmC n s t →
      (0 ≤ s.weight ∧ s.weight ≤ FarmC.max_weight ∧
       0 ≤ s.volume ∧ s.volume ≤ FarmC.max_volume ∧ (1, 0) ∉ s.harvested) →
      (1, 0) ∉ t.harvested := by
    intro n
    induction n with
    | zero =>
      intro s t h hs
      cases h
      exact hs.2.2.2.2
    | succ n ih =>
      intro s t h hs
      obtain ⟨m, hsm, hmt⟩ := h
      obtain ⟨hw0, hwM, hv0, hvM, hnh⟩ := hs
      have hb := step_load_bounds hsm hw0 hwM hv0 hvM
      refine ih m t hmt ⟨hb.1, hb.2.1, hb.2.2.1, hb.2.2.2, ?_⟩
      obtain ⟨npos, _, _, hc | hc | hc⟩ := stepRel_cases hsm
      · rw [hc.2]; exact hnh
      · obtain ⟨_, hch, hm⟩ := hc
        rw [hm]
        obtain ⟨hib, hwpos, _, hwcap, _⟩ := can_harvest_elim hch
        intro hmem
        rcases Finset.mem_insert.mp hmem with rfl | hmem2
        · have h20 : FarmC.get_weight (1, 0) = 20 := by decide
          have h12 : FarmC.max_weight = 12 := by decide
          rw [h20, h12] at hwcap
          omega
        · exact hnh hmem2
      · rw [hc.2.2]; exact hnh
  rintro ⟨n, t, hreach, hgoal⟩
  have hmem := is_goal_elim hgoal (1, 0) (by decide) (by decide)
  exact key n _ t hreach (by refine ⟨?_, ?_, ?_, ?_, ?_⟩ <;> decide) hmem

/-- Witness for C8 on `FarmC`, the spec's no-solution scenario: the search
terminates returning the no-solution triple. -/
theorem aSearchTerminates_witness :
    (∃ fuel r, a_search fuel FarmC (initialState FarmC) h_combined = some (.ok r)) ∧
    (∃ fuel, a_search fuel FarmC (initialState FarmC) h_combined =
      some (.ok (none, [], none))) :=
  ⟨(aSearchTerminates FarmC (initialState FarmC) h_combined).1,
   (aSearchTerminates FarmC (initialState FarmC) h_combined).2 farmC_no_goal⟩

/-! ### Claim C9: successors and the search never raise internally -/

/-- Claim C9: for every state whose position is an in-bounds farm cell,
`successors` returns normally — the error branches inside `move_to` and
`with_harvested` are unreachable when invoked from `successors` — and
`a_search` never produces an internal exception (the `.error` outcome of
the embedding). -/
theorem successorsNeverFail (farm : Farm) (s : State)
    (hpos : farm.in_bounds s.position = true) :
    (s.successors farm 1).isSome = true ∧
    ∀ (h : HeuristicFn) (start : State) (fuel : Nat) (msg : String),
      a_search fuel farm start h ≠ some (.error msg) := by
  refine ⟨successors_isSome s farm 1, ?_⟩
  intro h start fuel msg
  exact (runSearch_spec (h := h) fuel _ (initConfig_inv farm h start)).1 msg

/-- Witness for C9 on `FarmB`. -/
theorem successorsNeverFail_witness :
    FarmB.in_bounds (initialState FarmB).position = true ∧
    ((initialState FarmB).successors FarmB 1).isSome = true ∧
    a_search 3 FarmB (initialState FarmB) h_combined ≠
      some (.error "ValueError: invalid transition") :=
  ⟨by decide,
   (successorsNeverFail FarmB (initialState FarmB) (by decide)).1,
   (successorsNeverFail FarmB (initialState FarmB) (by decide)).2 h_combined
     (initialState FarmB) 3 "ValueError: invalid transition"⟩

/-! ### Claim C1: optimality of the returned cost (corrected) -/

/-- Counterexample to claim C1 as stated: on the five-cell `FarmA`,
`a_search` with `h_combined` returns total cost 7, but a six-step
transition chain (harvest the light cell first, unload, then harvest the
heavy cell) already reaches a goal, so the returned cost is not the
minimum over all goal-reaching transition sequences.  The heuristic
`h_return_if_full` is not admissible at full-basket goal states, which
makes A* commit to the wrong goal state first. -/
theorem aSearchNotOptimal :
    ¬ (∀ (farm : Farm) (start : State) (fuel : Nat) (g : State)
         (path : List (String × State)) (c : Int),
        a_search fuel farm start h_combined = some (.ok (some g, path, some c)) →
        ∃ n : Nat, c = (n : Int) ∧
          IsLeast {m : Nat | ∃ t, reachN farm m start t ∧ t.is_goal farm = true} n) := by
  intro hcl
  obtain ⟨g, path, hrun⟩ :
      ∃ g path, a_search 25 FarmA (initialState FarmA) h_combined =
        some (.ok (some g, path, some (7 : Int))) := ⟨_, _, by rfl⟩
  obtain ⟨n, hc, hleast⟩ := hcl FarmA (initialState FarmA) 25 g path 7 hrun
  have hchain : reachN FarmA 6 (initialState FarmA)
      (State.mk (1, 1) (12, 1000) {(1, 1), (1, 0)}) := by
    refine ⟨State.mk (1, 0) (1, 500) {(1, 0)}, (stepRel_iff _ _ _).mpr (by decide),
            State.mk (0, 0) (1, 500) {(1, 0)}, (stepRel_iff _ _ _).mpr (by decide),
            State.mk (-1, 0) (0, 0) {(1, 0)}, (stepRel_iff _ _ _).mpr (by decide),
            State.mk (0, 0) (0, 0) {(1, 0)}, (stepRel_iff _ _ _).mpr (by decide),
            State.mk (1, 0) (0, 0) {(1, 0)}, (stepRel_iff _ _ _).mpr (by decide),
            State.mk (1, 1) (12, 1000) {(1, 1), (1, 0)}, (stepRel_iff _ _ _).mpr (by decide),
            rfl⟩
  have h6 : n ≤ 6 := hleast.2 ⟨State.mk (1, 1) (12, 1000) {(1, 1), (1, 0)}, hchain, by decide⟩
  omega

/-- Claim C1, amended: whenever `a_search` with `h_combined` returns a
non-`None` goal state, the returned total cost is the total step cost of an
actual transition sequence (via `successors`) from the start state to the
returned goal state, which satisfies `is_goal`; it is therefore an upper
bound on the minimum goal-reaching cost, but (by `aSearchNotOptimal`) need
not equal it. -/
theorem aSearchCostSound (farm : Farm) (start : State) (fuel : Nat) (g : State)
    (path : List (String × State)) (c : Int)
    (hrun : a_search fuel farm start h_combined = some (.ok (some g, path, some c))) :
    g.is_goal farm = true ∧ ∃ n : Nat, c = (n : Int) ∧ reachN farm n start g := by
  have hspec := (runSearch_spec (h := h_combined) fuel _
    (initConfig_inv farm h_combined start)).2 _ hrun
  rcases hspec with hr | ⟨g', path', c', heq, hgoal, n, hc, hreach⟩
  · simp at hr
  · have hg : g = g' ∧ path = path' ∧ c = c' := by
      have h1 := congrArg (fun x => x.1) heq
      have h2 := congrArg (fun x => x.2.1) heq
      have h3 := congrArg (fun x => x.2.2) heq
      simp only at h1 h2 h3
      exact ⟨Option.some.inj h1, h2, Option.some.inj h3⟩
    obtain ⟨rfl, rfl, rfl⟩ := hg
    exact ⟨hgoal, n, hc, hreach⟩

/-- Witness for the amended C1 on the concrete `FarmA` run: the returned
cost 7 is realized by an actual seven-step chain to the returned goal. -/
theorem aSearchCostSound_witness :
    ∃ (g : State) (path : List (String × State)),
      a_search 25 FarmA (initialState FarmA) h_combined =
        some (.ok (some g, path, some (7 : Int))) ∧
      g.is_goal FarmA = true ∧
      ∃ n : Nat, (7 : Int) = (n : Int) ∧ reachN FarmA n (initialState FarmA) g := by
  refine ⟨_, _, by rfl, ?_⟩
  exact aSearchCostSound FarmA (initialState FarmA) 25 _ _ 7 (by rfl)

/-! ### Hex-metric lemmas for the admissibility argument -/

theorem hex_distance_nonneg (a b : Pos) : 0 ≤ hex_distance a b := by
  simp only [hex_distance]
  positivity

theorem hex_distance_neighbor {farm : Farm} {pos npos : Pos}
    (h : npos ∈ farm.get_neighbors pos) : hex_distance pos npos = 1 := by
  obtain ⟨_, d, hd, rfl⟩ := get_neighbors_elim h
  simp only [Farm.directions, List.mem_cons, List.not_mem_nil, or_false] at hd
  rcases hd with rfl | rfl | rfl | rfl | rfl | rfl <;>
    · simp only [hex_distance]
      omega

theorem hex_distance_triangle (a b c : Pos) :
    hex_distance a c ≤ hex_distance a b + hex_distance b c := by
  simp only [hex_distance]
  omega

/-! ### Minimum-of-list lemmas for the heuristic evaluator -/

theorem foldl_min_le_init : ∀ (ds : List Int) (d : Int), ds.foldl min d ≤ d := by
  intro ds
  induction ds with
  | nil => intro d; exact le_refl d
  | cons x xs ih =>
    intro d
    calc (x :: xs).foldl min d = xs.foldl min (min d x) := rfl
      _ ≤ min d x := ih (min d x)
      _ ≤ d := min_le_left _ _

theorem foldl_min_le_of_mem :
    ∀ (ds : List Int) (d x : Int), x ∈ ds → ds.foldl min d ≤ x := by
  intro ds
  induction ds with
  | nil => intro d x hx; cases hx
  | cons y ys ih =>
    intro d x hx
    rcases List.mem_cons.mp hx with rfl | hx'
    · calc (x :: ys).foldl min d = ys.foldl min (min d x) := rfl
        _ ≤ min d x := foldl_min_le_init _ _
        _ ≤ x := min_le_right _ _
    · exact ih (min d y) x hx'

theorem foldl_min_cases :
    ∀ (ds : List Int) (d : Int), ds.foldl min d = d ∨ ds.foldl min d ∈ ds := by
  intro ds
  induction ds with
  | nil => intro d; exact Or.inl rfl
  | cons x xs ih =>
    intro d
    rcases ih (min d x) with h | h
    · rcases min_cases d x with ⟨hm, _⟩ | ⟨hm, _⟩
      · exact Or.inl (by rw [show (x :: xs).foldl min d = xs.foldl min (min d x) from rfl, h, hm])
      · refine Or.inr (List.mem_cons.mpr (Or.inl ?_))
        rw [show (x :: xs).foldl min d = xs.foldl min (min d x) from rfl, h, hm]
    · exact Or.inr (List.mem_cons.mpr (Or.inr h))

theorem nearest_target_dist_exists {pos : Pos} {targets : List Pos}
    (h : targets ≠ []) :
    ∃ p ∈ targets, nearest_target_dist pos targets = hex_distance pos p := by
  cases targets with
  | nil => exact absurd rfl h
  | cons t ts =>
    have hval : nearest_target_dist pos (t :: ts) =
        (ts.map (fun x => hex_distance pos x)).foldl min (hex_distance pos t) := rfl
    rcases foldl_min_cases (ts.map (fun x => hex_distance pos x)) (hex_distance pos t) with
      hc | hc
    · exact ⟨t, List.mem_cons_self _ _, by rw [hval, hc]⟩
    · obtain ⟨p, hp, hpd⟩ := List.mem_map.mp hc
      exact ⟨p, List.mem_cons_of_mem _ hp, by rw [hval, ← hpd]⟩

/-! ### Lower bounds on the remaining cost of any goal-reaching chain -/

theorem reach_harvest_dist {farm : Farm} :
    ∀ {n : Nat} {s t : State} {p : Pos}, reachN farm n s t →
      p ∉ s.harvested → p ∈ t.harvested →
      hex_distance s.position p ≤ (n : Int) := by
  intro n
  induction n with
  | zero =>
    intro s t p h h1 h2
    cases h
    exact absurd h2 h1
  | succ n ih =>
    intro s t p h h1 h2
    obtain ⟨m, hsm, hmt⟩ := h
    by_cases hpm : p ∈ m.harvested
    · obtain ⟨npos, hnp, _, hc | hc | hc⟩ := stepRel_cases hsm
      · rw [hc.2] at hpm
        exact absurd hpm h1
      · rw [hc.2.2] at hpm
        rcases Finset.mem_insert.mp hpm with rfl | hpm2
        · have hd := hex_distance_neighbor hnp
          rw [hd]
          push_cast
          omega
        · exact absurd hpm2 h1
      · rw [hc.2.2] at hpm
        exact absurd hpm h1
    · have hd := ih hmt hpm h2
      have htri := hex_distance_triangle s.position m.position p
      have hnb : hex_distance s.position m.position = 1 := by
        obtain ⟨npos, hnp, _, hc⟩ := stepRel_cases hsm
        have hmp : m.position = npos := by
          rcases hc with ⟨_, rfl⟩ | ⟨_, _, rfl⟩ | ⟨_, _, rfl⟩ <;> rfl
        rw [hmp]
        exact hex_distance_neighbor hnp
      push_cast
      push_cast at hd
      omega

theorem reach_station_dist {farm : Farm} :
    ∀ {n : Nat} {s t : State}, reachN farm n s t →
      farm.max_weight ≤ s.weight →
      (∃ p, p ∈ farm.all_cells ∧ 0 < farm.get_weight p ∧
        p ∉ s.harvested ∧ p ∈ t.harvested) →
      ∃ cs ∈ farm.get_collection_stations, hex_distance s.position cs ≤ (n : Int) := by
  intro n
  induction n with
  | zero =>
    rintro s t h _ ⟨p, _, _, h1, h2⟩
    cases h
    exact absurd h2 h1
  | succ n ih =>
    rintro s t h hfull ⟨p, hpc, hpw, h1, h2⟩
    obtain ⟨m, hsm, hmt⟩ := h
    obtain ⟨npos, hnp, _, hc | hc | hc⟩ := stepRel_cases hsm
    · refine ⟨npos, hc.1, ?_⟩
      have hd := hex_distance_neighbor hnp
      rw [hd]
      push_cast
      omega
    · obtain ⟨_, hch, _⟩ := hc
      obtain ⟨_, hwpos, _, hwcap, _⟩ := can_harvest_elim hch
      omega
    · obtain ⟨_, _, hm⟩ := hc
      have hmw : m.weight = s.weight := by rw [hm]; rfl
      have hmh : m.harvested = s.harvested := by rw [hm]
      have hmp : m.position = npos := by rw [hm]
      obtain ⟨cs, hcs, hd⟩ := ih hmt (by rw [hmw]; exact hfull)
        ⟨p, hpc, hpw, by rw [hmh]; exact h1, h2⟩
      refine ⟨cs, hcs, ?_⟩
      have htri := hex_distance_triangle s.position m.position cs
      have hnb : hex_distance s.position m.position = 1 := by
        rw [hmp]
        exact hex_distance_neighbor hnp
      push_cast
      push_cast at hd
      omega

/-! ### Claim C2: admissibility of `h_combined` (corrected) -/

/-- Counterexample to claim C2 as stated: on `FarmB`, one step from the
initial state reaches the state at the weight-12 cell with a full basket.
That state is already a goal, so its true minimum remaining cost is 0 (the
empty transition sequence), but `h_return_if_full` fires (weight 12 reaches
`BASKET_LIMIT`) and `h_combined` evaluates to 2, the distance to the
station — an overestimate. -/
theorem hCombinedNotAdmissible :
    ¬ (∀ (farm : Farm) (s : State),
        ReachableFrom farm (initialState farm) s →
        ∀ (n : Nat) (t : State), reachN farm n s t → t.is_goal farm = true →
          h_combined s farm ≤ (n : Int)) := by
  intro hcl
  have hstep : stepRel FarmB (initialState FarmB)
      (State.mk (1, 0) (12, 1000) {(1, 0)}) :=
    (stepRel_iff _ _ _).mpr (by decide)
  have hr : ReachableFrom FarmB (initialState FarmB)
      (State.mk (1, 0) (12, 1000) {(1, 0)}) := ⟨1, _, hstep, rfl⟩
  have hle := hcl FarmB _ hr 0 _ rfl (by decide)
  have hval : h_combined (State.mk (1, 0) (12, 1000) {(1, 0)}) FarmB = 2 := by decide
  rw [hval] at hle
  omega

/-- Claim C2, amended: on a farm whose declared `max_weight` does not
exceed the hard-coded `BASKET_LIMIT` (true of every farm the program
builds, where both are 12), and for every reachable state that is not
already a goal, `h_combined` never overestimates: it is at most the total
step cost of every transition sequence from that state to a goal state,
hence at most the true minimum remaining cost.  The goal-state restriction
and the `max_weight` bound are both forced: `h_return_if_full` compares the
carried weight against the constant `BASKET_LIMIT` rather than the farm's
maximum, and it can be positive at a full-basket goal state. -/
theorem hCombinedAdmissible (farm : Farm) (s : State)
    (hmax : farm.max_weight ≤ BASKET_LIMIT)
    (hreach : ReachableFrom farm (initialState farm) s)
    (hnotgoal : s.is_goal farm = false) :
    ∀ (n : Nat) (t : State), reachN farm n s t → t.is_goal farm = true →
      h_combined s farm ≤ (n : Int) := by
  intro n t hnt hgoal
  unfold h_combined
  rw [max_le_iff]
  obtain ⟨p0, hp0c, hp0w, hp0h⟩ := is_goal_false_elim hnotgoal
  constructor
  · -- nearest-unharvested-cell distance is a lower bound on the chain length
    unfold h_nearest_plot
    have hne : farm.all_cells.filter
        (fun p => decide (0 < farm.get_weight p) && decide (p ∉ s.harvested)) ≠ [] := by
      intro hnil
      have hmem : p0 ∈ farm.all_cells.filter
          (fun p => decide (0 < farm.get_weight p) && decide (p ∉ s.harvested)) :=
        List.mem_filter.mpr ⟨hp0c, by simp [hp0w, hp0h]⟩
      rw [hnil] at hmem
      cases hmem
    obtain ⟨p, hpf, hpd⟩ := nearest_target_dist_exists hne
    rw [hpd]
    have hpmem := List.mem_filter.mp hpf
    have hcond := hpmem.2
    simp only [Bool.and_eq_true, decide_eq_true_eq] at hcond
    have hpt : p ∈ t.harvested := is_goal_elim hgoal p hpmem.1 hcond.1
    exact reach_harvest_dist hnt hcond.2 hpt
  · -- station distance is a lower bound when the basket has hit the limit
    unfold h_return_if_full
    by_cases hw : s.weight < BASKET_LIMIT
    · rw [if_pos hw]
      positivity
    · rw [if_neg hw]
      have hfull : farm.max_weight ≤ s.weight := le_trans hmax (not_lt.mp hw)
      have hp0t : p0 ∈ t.harvested := is_goal_elim hgoal p0 hp0c hp0w
      obtain ⟨cs, hcs, hd⟩ := reach_station_dist hnt hfull ⟨p0, hp0c, hp0w, hp0h, hp0t⟩
      cases hst : farm.get_collection_stations with
      | nil =>
        simp only [List.map_nil]
        positivity
      | cons c cs' =>
        simp only [List.map_cons]
        rw [hst] at hcs
        rcases List.mem_cons.mp hcs with rfl | hcs'
        · exact le_trans (foldl_min_le_init _ _) hd
        · refine le_trans (foldl_min_le_of_mem _ _ _ ?_) hd
          exact List.mem_map.mpr ⟨cs, hcs', rfl⟩

/-- Witness for the amended C2 on `FarmB`: the initial state is reachable
(empty chain), is not a goal, and `h_combined` there is bounded by the
length 1 of the one-step chain that reaches a goal. -/
theorem hCombinedAdmissible_witness :
    FarmB.max_weight ≤ BASKET_LIMIT ∧
    ReachableFrom FarmB (initialState FarmB) (initialState FarmB) ∧
    (initialState FarmB).is_goal FarmB = false ∧
    reachN FarmB 1 (initialState FarmB) (State.mk (1, 0) (12, 1000) {(1, 0)}) ∧
    (State.mk (1, 0) (12, 1000) {(1, 0)}).is_goal FarmB = true ∧
    h_combined (initialState FarmB) FarmB ≤ ((1 : Nat) : Int) := by
  have hchain : reachN FarmB 1 (initialState FarmB)
      (State.mk (1, 0) (12, 1000) {(1, 0)}) :=
    ⟨_, (stepRel_iff _ _ _).mpr (by decide), rfl⟩
  refine ⟨by decide, ⟨0, rfl⟩, by decide, hchain, by decide, ?_⟩
  exact hCombinedAdmissible FarmB (initialState FarmB) (by decide) ⟨0, rfl⟩ (by decide)
    1 _ hchain (by decide)
